import Mathlib

set_option linter.unusedVariables false

/-!
Shallow embedding of the lodash custom-build tool (`build.js`): the
dependency maps, the transitive dependency resolver `getDependencies`,
the reverse lookup `getDependants`, alias resolution `getRealName`, the
build-set computation inside `build`, the property/variable expansion,
the dead-variable elimination loop, directive validation, and the
source locator/removal skeletons.

JavaScript objects become association lists (`DepMap`), JS arrays become
`List String`, and the mutable shared `stack` arrays of the recursive
graph walks become explicitly threaded state.  The unbounded JS
recursion is embedded with a fuel parameter; fuel sufficiency is proved
(`visitList_isSome` etc.), so the embedded functions are total on the
fuel their wrappers supply, exactly mirroring the termination behaviour
of the source.
-/

/-- JS objects used as string-keyed maps of dependency lists. -/
abbrev DepMap := List (String × List String)

/-- `hasOwnProperty.call(depMap, name) && depMap[name]`, with a missing
key giving no dependencies (the `!deps` early return in
`getDependencies`). -/
def depsOf (m : DepMap) (name : String) : List String :=
  match m.find? (fun p => p.1 == name) with
  | some p => p.2
  | none => []

/-- `hasOwnProperty.call(m, name)`. -/
def hasKey (m : DepMap) (name : String) : Bool :=
  (m.find? (fun p => p.1 == name)).isSome

/-- The keys of a map, in iteration order. -/
def keysOf (m : DepMap) : List String := m.map (fun p => p.1)

/-- All dependency names appearing in the values of a map. -/
def flatValues (m : DepMap) : List String := (m.map (fun p => p.2)).flatten

/-- lodash `_.uniq`: keeps the first occurrence of each element,
scanning with a seen accumulator. -/
def uniqAcc (acc : List String) : List String → List String
  | [] => acc
  | x :: xs => if x ∈ acc then uniqAcc acc xs else uniqAcc (acc ++ [x]) xs

def uniq (l : List String) : List String := uniqAcc [] l

theorem mem_uniqAcc {x : String} :
    ∀ {l acc : List String}, x ∈ uniqAcc acc l ↔ x ∈ acc ∨ x ∈ l := by
  intro l
  induction l with
  | nil => simp [uniqAcc]
  | cons y ys ih =>
    intro acc
    rw [uniqAcc]
    by_cases hy : y ∈ acc
    · rw [if_pos hy, ih]
      constructor
      · rintro (h | h)
        · exact Or.inl h
        · exact Or.inr (List.mem_cons_of_mem y h)
      · rintro (h | h)
        · exact Or.inl h
        · rcases List.mem_cons.mp h with rfl | h
          · exact Or.inl hy
          · exact Or.inr h
    · rw [if_neg hy, ih]
      simp only [List.mem_append, List.mem_singleton, List.mem_cons]
      tauto

theorem mem_uniq {l : List String} {x : String} : x ∈ uniq l ↔ x ∈ l := by
  rw [uniq, mem_uniqAcc]
  simp

/-- lodash `_.union(a, b)`: dedup of the concatenation, keeping first
occurrences. -/
def union (a b : List String) : List String := uniq (a ++ b)

/-- lodash `_.difference(a, b)`: the elements of `a` not contained in
`b`, in order. -/
def difference (a b : List String) : List String :=
  a.filter (fun x => ¬ x ∈ b)

theorem mem_union {a b : List String} {x : String} :
    x ∈ union a b ↔ x ∈ a ∨ x ∈ b := by
  simp [union, mem_uniq]

theorem mem_difference {a b : List String} {x : String} :
    x ∈ difference a b ↔ x ∈ a ∧ ¬ x ∈ b := by
  simp [difference]

/-!
### `getDependencies` (build.js lines 1327-1360)

The non-shallow branch accumulates, for each name in `deps` that is not
already on the shared visited `stack`, the recursively collected
dependencies followed by the name itself.  `visitList m fuel deps stack`
walks a dependency list: the fuel bounds the depth of descents (each
descent pushes a fresh name on the stack, so the number of distinct
names bounds the depth, which `visitList_isSome` proves). -/
def visitList (m : DepMap) (fuel : Nat) (deps stack : List String) :
    Option (List String × List String) :=
  match deps with
  | [] => some ([], stack)
  | d :: rest =>
    if d ∈ stack then visitList m fuel rest stack
    else
      match fuel with
      | 0 => none
      | f + 1 =>
        match visitList m f (depsOf m d) (stack ++ [d]) with
        | none => none
        | some (r1, s1) =>
          match visitList m (f + 1) rest s1 with
          | none => none
          | some (r2, s2) => some (r1 ++ [d] ++ r2, s2)
termination_by (fuel, deps.length)
decreasing_by
  · apply Prod.Lex.right
    simp
  · apply Prod.Lex.left
    omega
  · apply Prod.Lex.right
    simp

/-- The fuel used by the wrappers: every name that can ever be pushed on
the visited stack occurs in the initial list or in some dependency list
of the map. -/
def depUniverse (m : DepMap) (names : List String) : List String :=
  names ++ flatValues m

/-- One level of the walk, with the recursive descent abstracted as
`next`: this structural form is what `visitListE` iterates, and it is
proved equal to `visitList` (`visitListE_eq`), giving an executable
version the kernel can evaluate. -/
def walkWith (next : String → List String → Option (List String × List String)) :
    List String → List String → Option (List String × List String)
  | [], stack => some ([], stack)
  | d :: rest, stack =>
    if d ∈ stack then walkWith next rest stack
    else
      match next d (stack ++ [d]) with
      | none => none
      | some (r1, s1) =>
        match walkWith next rest s1 with
        | none => none
        | some (r2, s2) => some (r1 ++ [d] ++ r2, s2)

/-- Fuel-structural version of `visitList`. -/
def visitListE (m : DepMap) : Nat → List String → List String →
    Option (List String × List String)
  | 0, deps, stack => walkWith (fun _ _ => none) deps stack
  | fuel + 1, deps, stack =>
    walkWith (fun d s => visitListE m fuel (depsOf m d) s) deps stack

/-- `getDependencies(funcName, depMap)` for an array argument: the
requested names themselves are walked, so the result contains each
requested name together with its transitive dependencies
(`_.uniq`-ed accumulation). -/
def getDependencies (m : DepMap) (names : List String) : List String :=
  match visitListE m (depUniverse m names).length names [] with
  | some (r, _) => uniq r
  | none => []

/-- `getDependencies(funcName, depMap)` for a single name: the walk
starts from the name's own dependency list (`funcName` itself is not
added). -/
def getDependenciesOf (m : DepMap) (name : String) : List String :=
  getDependencies m (depsOf m name)

theorem visitList_nil (m : DepMap) (fuel : Nat) (stack : List String) :
    visitList m fuel [] stack = some ([], stack) := by
  rw [visitList.eq_def]

theorem visitList_cons_mem (m : DepMap) (fuel : Nat) (d : String)
    (rest stack : List String) (h : d ∈ stack) :
    visitList m fuel (d :: rest) stack = visitList m fuel rest stack := by
  rw [visitList.eq_def]
  simp [h]

theorem visitList_cons_zero (m : DepMap) (d : String)
    (rest stack : List String) (h : ¬ d ∈ stack) :
    visitList m 0 (d :: rest) stack = none := by
  rw [visitList.eq_def]
  simp [h]

theorem visitList_step_dnone (m : DepMap) (f : Nat) (d : String)
    (rest stack : List String) (h : ¬ d ∈ stack)
    (hdesc : visitList m f (depsOf m d) (stack ++ [d]) = none) :
    visitList m (f + 1) (d :: rest) stack = none := by
  conv_lhs => rw [visitList.eq_def]
  simp [h, hdesc]

theorem visitList_step_snone (m : DepMap) (f : Nat) (d : String)
    (rest stack r1 s1 : List String) (h : ¬ d ∈ stack)
    (hdesc : visitList m f (depsOf m d) (stack ++ [d]) = some (r1, s1))
    (hsib : visitList m (f + 1) rest s1 = none) :
    visitList m (f + 1) (d :: rest) stack = none := by
  conv_lhs => rw [visitList.eq_def]
  simp [h, hdesc, hsib]

theorem visitList_step_some (m : DepMap) (f : Nat) (d : String)
    (rest stack r1 s1 r2 s2 : List String) (h : ¬ d ∈ stack)
    (hdesc : visitList m f (depsOf m d) (stack ++ [d]) = some (r1, s1))
    (hsib : visitList m (f + 1) rest s1 = some (r2, s2)) :
    visitList m (f + 1) (d :: rest) stack = some (r1 ++ [d] ++ r2, s2) := by
  conv_lhs => rw [visitList.eq_def]
  simp [h, hdesc, hsib]

theorem depsOf_sub_flatValues (m : DepMap) (name : String) :
    ∀ x ∈ depsOf m name, x ∈ flatValues m := by
  intro x hx
  rw [depsOf.eq_def] at hx
  cases hfind : m.find? (fun p => p.1 == name) with
  | none =>
    rw [hfind] at hx
    exact absurd hx (by simp)
  | some p =>
    rw [hfind] at hx
    have hp : p ∈ m := List.mem_of_find?_eq_some hfind
    rw [flatValues]
    simp only [List.mem_flatten, List.mem_map]
    exact ⟨p.2, ⟨p, hp, rfl⟩, hx⟩

theorem walkWith_nil (next : String → List String → Option (List String × List String))
    (stack : List String) : walkWith next [] stack = some ([], stack) := by
  rw [walkWith]

theorem walkWith_cons_mem (next : String → List String → Option (List String × List String))
    (d : String) (rest stack : List String) (h : d ∈ stack) :
    walkWith next (d :: rest) stack = walkWith next rest stack := by
  rw [walkWith]
  rw [if_pos h]

theorem walkWith_cons_new (next : String → List String → Option (List String × List String))
    (d : String) (rest stack : List String) (h : ¬ d ∈ stack) :
    walkWith next (d :: rest) stack =
      match next d (stack ++ [d]) with
      | none => none
      | some (r1, s1) =>
        match walkWith next rest s1 with
        | none => none
        | some (r2, s2) => some (r1 ++ [d] ++ r2, s2) := by
  conv_lhs => rw [walkWith]
  rw [if_neg h]

theorem visitListE_zero (m : DepMap) (deps stack : List String) :
    visitListE m 0 deps stack = walkWith (fun _ _ => none) deps stack := by
  rw [visitListE]

theorem visitListE_succ (m : DepMap) (f : Nat) (deps stack : List String) :
    visitListE m (f + 1) deps stack =
      walkWith (fun d s => visitListE m f (depsOf m d) s) deps stack := by
  rw [visitListE]

/-- The structural implementation agrees with the recursive
specification everywhere. -/
theorem visitListE_eq (m : DepMap) :
    ∀ fuel deps stack, visitListE m fuel deps stack = visitList m fuel deps stack := by
  intro fuel deps stack
  induction fuel, deps, stack using visitList.induct m with
  | case1 fuel stack =>
    cases fuel with
    | zero => rw [visitListE_zero, walkWith_nil, visitList_nil]
    | succ f => rw [visitListE_succ, walkWith_nil, visitList_nil]
  | case2 fuel stack d rest hd ih =>
    rw [visitList_cons_mem m fuel d rest stack hd, ← ih]
    cases fuel with
    | zero =>
      rw [visitListE_zero, visitListE_zero]
      exact walkWith_cons_mem _ d rest stack hd
    | succ f =>
      rw [visitListE_succ, visitListE_succ]
      exact walkWith_cons_mem _ d rest stack hd
  | case3 stack d rest hd =>
    rw [visitList_cons_zero m d rest stack hd, visitListE_zero,
      walkWith_cons_new _ d rest stack hd]
  | case4 stack d rest hd f hnone ih1 =>
    rw [visitList_step_dnone m f d rest stack hd hnone, visitListE_succ,
      walkWith_cons_new _ d rest stack hd]
    simp only [ih1, hnone]
  | case5 stack d rest hd f r1 s1 hdesc hnone ih1 ih2 =>
    rw [visitList_step_snone m f d rest stack r1 s1 hd hdesc hnone,
      visitListE_succ, walkWith_cons_new _ d rest stack hd]
    simp only [ih1, hdesc]
    rw [← visitListE_succ, ih2, hnone]
  | case6 stack d rest hd f r1 s1 hdesc r2 s2 hsib ih1 ih2 =>
    rw [visitList_step_some m f d rest stack r1 s1 r2 s2 hd hdesc hsib,
      visitListE_succ, walkWith_cons_new _ d rest stack hd]
    simp only [ih1, hdesc]
    rw [← visitListE_succ, ih2, hsib]

/-- The shared visited stack only grows during a walk. -/
theorem visitList_stack_sub (m : DepMap) :
    ∀ fuel deps stack r s', visitList m fuel deps stack = some (r, s') →
    ∀ x ∈ stack, x ∈ s' := by
  intro fuel deps stack
  induction fuel, deps, stack using visitList.induct m with
  | case1 fuel stack =>
    intro r s' h
    rw [visitList_nil] at h
    simp only [Option.some.injEq, Prod.mk.injEq] at h
    obtain ⟨-, rfl⟩ := h
    exact fun x hx => hx
  | case2 fuel stack d rest hd ih =>
    intro r s' h
    rw [visitList_cons_mem m fuel d rest stack hd] at h
    exact ih r s' h
  | case3 stack d rest hd =>
    intro r s' h
    rw [visitList_cons_zero m d rest stack hd] at h
    exact absurd h (by simp)
  | case4 stack d rest hd f hnone ih =>
    intro r s' h
    rw [visitList_step_dnone m f d rest stack hd hnone] at h
    exact absurd h (by simp)
  | case5 stack d rest hd f r1 s1 hdesc hnone ih1 ih2 =>
    intro r s' h
    rw [visitList_step_snone m f d rest stack r1 s1 hd hdesc hnone] at h
    exact absurd h (by simp)
  | case6 stack d rest hd f r1 s1 hdesc r2 s2 hsib ih1 ih2 =>
    intro r s' h
    rw [visitList_step_some m f d rest stack r1 s1 r2 s2 hd hdesc hsib] at h
    simp only [Option.some.injEq, Prod.mk.injEq] at h
    obtain ⟨-, rfl⟩ := h
    intro x hx
    exact ih2 r2 s2 hsib x
      (ih1 r1 s1 hdesc x (by simp [List.mem_append, hx]))

/-- Every name of the walked list ends up on the final stack. -/
theorem visitList_deps_sub (m : DepMap) :
    ∀ fuel deps stack r s', visitList m fuel deps stack = some (r, s') →
    ∀ d ∈ deps, d ∈ s' := by
  intro fuel deps stack
  induction fuel, deps, stack using visitList.induct m with
  | case1 fuel stack =>
    intro r s' h x hx
    exact absurd hx (by simp)
  | case2 fuel stack d rest hd ih =>
    intro r s' h x hx
    rw [visitList_cons_mem m fuel d rest stack hd] at h
    rcases List.mem_cons.mp hx with rfl | hx
    · exact visitList_stack_sub m fuel rest stack r s' h x hd
    · exact ih r s' h x hx
  | case3 stack d rest hd =>
    intro r s' h
    rw [visitList_cons_zero m d rest stack hd] at h
    exact absurd h (by simp)
  | case4 stack d rest hd f hnone ih =>
    intro r s' h
    rw [visitList_step_dnone m f d rest stack hd hnone] at h
    exact absurd h (by simp)
  | case5 stack d rest hd f r1 s1 hdesc hnone ih1 ih2 =>
    intro r s' h
    rw [visitList_step_snone m f d rest stack r1 s1 hd hdesc hnone] at h
    exact absurd h (by simp)
  | case6 stack d rest hd f r1 s1 hdesc r2 s2 hsib ih1 ih2 =>
    intro r s' h x hx
    rw [visitList_step_some m f d rest stack r1 s1 r2 s2 hd hdesc hsib] at h
    simp only [Option.some.injEq, Prod.mk.injEq] at h
    obtain ⟨-, rfl⟩ := h
    rcases List.mem_cons.mp hx with rfl | hx
    · exact visitList_stack_sub m (f + 1) rest s1 r2 s2 hsib x
        (visitList_stack_sub m f (depsOf m x) (stack ++ [x]) r1 s1 hdesc x
          (by simp))
    · exact ih2 r2 s2 hsib x hx

/-- Every name in the accumulated result is on the final stack. -/
theorem visitList_res_sub (m : DepMap) :
    ∀ fuel deps stack r s', visitList m fuel deps stack = some (r, s') →
    ∀ x ∈ r, x ∈ s' := by
  intro fuel deps stack
  induction fuel, deps, stack using visitList.induct m with
  | case1 fuel stack =>
    intro r s' h
    rw [visitList_nil] at h
    simp only [Option.some.injEq, Prod.mk.injEq] at h
    obtain ⟨hr, -⟩ := h
    intro x hx
    rw [← hr] at hx
    exact absurd hx (by simp)
  | case2 fuel stack d rest hd ih =>
    intro r s' h
    rw [visitList_cons_mem m fuel d rest stack hd] at h
    exact ih r s' h
  | case3 stack d rest hd =>
    intro r s' h
    rw [visitList_cons_zero m d rest stack hd] at h
    exact absurd h (by simp)
  | case4 stack d rest hd f hnone ih =>
    intro r s' h
    rw [visitList_step_dnone m f d rest stack hd hnone] at h
    exact absurd h (by simp)
  | case5 stack d rest hd f r1 s1 hdesc hnone ih1 ih2 =>
    intro r s' h
    rw [visitList_step_snone m f d rest stack r1 s1 hd hdesc hnone] at h
    exact absurd h (by simp)
  | case6 stack d rest hd f r1 s1 hdesc r2 s2 hsib ih1 ih2 =>
    intro r s' h x hx
    rw [visitList_step_some m f d rest stack r1 s1 r2 s2 hd hdesc hsib] at h
    simp only [Option.some.injEq, Prod.mk.injEq] at h
    obtain ⟨hr, rfl⟩ := h
    subst hr
    simp only [List.mem_append, List.mem_singleton] at hx
    rcases hx with (hx | rfl) | hx
    · exact visitList_stack_sub m (f + 1) rest s1 r2 s2 hsib x
        (ih1 r1 s1 hdesc x hx)
    · exact visitList_stack_sub m (f + 1) rest s1 r2 s2 hsib x
        (visitList_stack_sub m f (depsOf m x) (stack ++ [x]) r1 s1 hdesc x
          (by simp))
    · exact ih2 r2 s2 hsib x hx

/-- Every name on the final stack was either there initially or is in
the accumulated result. -/
theorem visitList_new_in_res (m : DepMap) :
    ∀ fuel deps stack r s', visitList m fuel deps stack = some (r, s') →
    ∀ x ∈ s', x ∈ stack ∨ x ∈ r := by
  intro fuel deps stack
  induction fuel, deps, stack using visitList.induct m with
  | case1 fuel stack =>
    intro r s' h
    rw [visitList_nil] at h
    simp only [Option.some.injEq, Prod.mk.injEq] at h
    obtain ⟨-, rfl⟩ := h
    exact fun x hx => Or.inl hx
  | case2 fuel stack d rest hd ih =>
    intro r s' h
    rw [visitList_cons_mem m fuel d rest stack hd] at h
    exact ih r s' h
  | case3 stack d rest hd =>
    intro r s' h
    rw [visitList_cons_zero m d rest stack hd] at h
    exact absurd h (by simp)
  | case4 stack d rest hd f hnone ih =>
    intro r s' h
    rw [visitList_step_dnone m f d rest stack hd hnone] at h
    exact absurd h (by simp)
  | case5 stack d rest hd f r1 s1 hdesc hnone ih1 ih2 =>
    intro r s' h
    rw [visitList_step_snone m f d rest stack r1 s1 hd hdesc hnone] at h
    exact absurd h (by simp)
  | case6 stack d rest hd f r1 s1 hdesc r2 s2 hsib ih1 ih2 =>
    intro r s' h x hx
    rw [visitList_step_some m f d rest stack r1 s1 r2 s2 hd hdesc hsib] at h
    simp only [Option.some.injEq, Prod.mk.injEq] at h
    obtain ⟨hr, rfl⟩ := h
    subst hr
    rcases ih2 r2 s2 hsib x hx with hx1 | hx1
    · rcases ih1 r1 s1 hdesc x hx1 with hx2 | hx2
      · simp only [List.mem_append, List.mem_singleton] at hx2
        rcases hx2 with hx2 | rfl
        · exact Or.inl hx2
        · exact Or.inr (by simp)
      · exact Or.inr (by simp [hx2])
    · exact Or.inr (by simp [hx1])

/-- Every freshly visited name has all of its direct dependencies on
the final stack: the walk closes the visited set under `depsOf`. -/
theorem visitList_closed (m : DepMap) :
    ∀ fuel deps stack r s', visitList m fuel deps stack = some (r, s') →
    ∀ x ∈ s', ¬ x ∈ stack → ∀ e ∈ depsOf m x, e ∈ s' := by
  intro fuel deps stack
  induction fuel, deps, stack using visitList.induct m with
  | case1 fuel stack =>
    intro r s' h
    rw [visitList_nil] at h
    simp only [Option.some.injEq, Prod.mk.injEq] at h
    obtain ⟨-, rfl⟩ := h
    intro x hx hnx
    exact absurd hx hnx
  | case2 fuel stack d rest hd ih =>
    intro r s' h
    rw [visitList_cons_mem m fuel d rest stack hd] at h
    exact ih r s' h
  | case3 stack d rest hd =>
    intro r s' h
    rw [visitList_cons_zero m d rest stack hd] at h
    exact absurd h (by simp)
  | case4 stack d rest hd f hnone ih =>
    intro r s' h
    rw [visitList_step_dnone m f d rest stack hd hnone] at h
    exact absurd h (by simp)
  | case5 stack d rest hd f r1 s1 hdesc hnone ih1 ih2 =>
    intro r s' h
    rw [visitList_step_snone m f d rest stack r1 s1 hd hdesc hnone] at h
    exact absurd h (by simp)
  | case6 stack d rest hd f r1 s1 hdesc r2 s2 hsib ih1 ih2 =>
    intro r s' h x hx hnx
    rw [visitList_step_some m f d rest stack r1 s1 r2 s2 hd hdesc hsib] at h
    simp only [Option.some.injEq, Prod.mk.injEq] at h
    obtain ⟨-, rfl⟩ := h
    by_cases hx1 : x ∈ s1
    · by_cases hxd : x = d
      · subst hxd
        intro e he
        exact visitList_stack_sub m (f + 1) rest s1 r2 s2 hsib e
          (visitList_deps_sub m f (depsOf m x) (stack ++ [x]) r1 s1 hdesc e he)
      · intro e he
        exact visitList_stack_sub m (f + 1) rest s1 r2 s2 hsib e
          (ih1 r1 s1 hdesc x hx1 (by simp [hnx, hxd]) e he)
    · exact ih2 r2 s2 hsib x hx hx1

/-- Every name pushed on the stack comes from `deps` or from some
dependency list of the map: the universe of visitable names. -/
theorem visitList_universe (m : DepMap) :
    ∀ fuel deps stack r s', visitList m fuel deps stack = some (r, s') →
    ∀ x ∈ s', x ∈ stack ∨ x ∈ deps ∨ x ∈ flatValues m := by
  intro fuel deps stack
  induction fuel, deps, stack using visitList.induct m with
  | case1 fuel stack =>
    intro r s' h
    rw [visitList_nil] at h
    simp only [Option.some.injEq, Prod.mk.injEq] at h
    obtain ⟨-, rfl⟩ := h
    exact fun x hx => Or.inl hx
  | case2 fuel stack d rest hd ih =>
    intro r s' h x hx
    rw [visitList_cons_mem m fuel d rest stack hd] at h
    rcases ih r s' h x hx with h1 | h1 | h1
    · exact Or.inl h1
    · exact Or.inr (Or.inl (List.mem_cons_of_mem d h1))
    · exact Or.inr (Or.inr h1)
  | case3 stack d rest hd =>
    intro r s' h
    rw [visitList_cons_zero m d rest stack hd] at h
    exact absurd h (by simp)
  | case4 stack d rest hd f hnone ih =>
    intro r s' h
    rw [visitList_step_dnone m f d rest stack hd hnone] at h
    exact absurd h (by simp)
  | case5 stack d rest hd f r1 s1 hdesc hnone ih1 ih2 =>
    intro r s' h
    rw [visitList_step_snone m f d rest stack r1 s1 hd hdesc hnone] at h
    exact absurd h (by simp)
  | case6 stack d rest hd f r1 s1 hdesc r2 s2 hsib ih1 ih2 =>
    intro r s' h x hx
    rw [visitList_step_some m f d rest stack r1 s1 r2 s2 hd hdesc hsib] at h
    simp only [Option.some.injEq, Prod.mk.injEq] at h
    obtain ⟨-, rfl⟩ := h
    rcases ih2 r2 s2 hsib x hx with h1 | h1 | h1
    · rcases ih1 r1 s1 hdesc x h1 with h2 | h2 | h2
      · simp only [List.mem_append, List.mem_singleton] at h2
        rcases h2 with h2 | rfl
        · exact Or.inl h2
        · exact Or.inr (Or.inl (by simp))
      · exact Or.inr (Or.inr (depsOf_sub_flatValues m d x h2))
      · exact Or.inr (Or.inr h2)
    · exact Or.inr (Or.inl (List.mem_cons_of_mem d h1))
    · exact Or.inr (Or.inr h1)

theorem length_filter_imp {α : Type} (l : List α) (p q : α → Bool)
    (h : ∀ x ∈ l, p x = true → q x = true) :
    (l.filter p).length ≤ (l.filter q).length := by
  induction l with
  | nil => simp
  | cons x xs ih =>
    have ih2 := ih (fun y hy => h y (List.mem_cons_of_mem x hy))
    by_cases hp : p x = true
    · rw [List.filter_cons_of_pos hp, List.filter_cons_of_pos (h x (by simp) hp)]
      simpa using ih2
    · rw [List.filter_cons_of_neg (by simpa using hp)]
      by_cases hq : q x = true
      · rw [List.filter_cons_of_pos hq]
        exact Nat.le_succ_of_le ih2
      · rw [List.filter_cons_of_neg (by simpa using hq)]
        exact ih2

/-- Number of universe names not yet on the visited stack: the
decreasing measure that justifies the fuel bound. -/
def remCount (u stack : List String) : Nat :=
  (u.dedup.filter (fun x => ¬ x ∈ stack)).length

theorem remCount_le_length (u stack : List String) :
    remCount u stack ≤ u.length :=
  le_trans (u.dedup.length_filter_le _) (List.Sublist.length_le u.dedup_sublist)

theorem remCount_mono (u s1 s2 : List String) (h : ∀ x ∈ s1, x ∈ s2) :
    remCount u s2 ≤ remCount u s1 := by
  apply length_filter_imp
  intro x hx hmem
  simp only [decide_eq_true_eq] at hmem ⊢
  exact fun hx1 => hmem (h x hx1)

theorem filter_push_length (stack : List String) (d : String)
    (hds : ¬ d ∈ stack) :
    ∀ l : List String, l.Nodup → d ∈ l →
    (l.filter (fun x => ¬ x ∈ stack ++ [d])).length + 1 =
    (l.filter (fun x => ¬ x ∈ stack)).length := by
  intro l
  induction l with
  | nil =>
    intro _ h
    exact absurd h (by simp)
  | cons y ys ih =>
    intro hnd hdl
    have hnd2 := (List.nodup_cons.mp hnd).2
    rcases List.mem_cons.mp hdl with rfl | hdl2
    · have hyd : ¬ d ∈ ys := (List.nodup_cons.mp hnd).1
      have hfeq : ys.filter (fun x => ¬ x ∈ stack ++ [d]) =
          ys.filter (fun x => ¬ x ∈ stack) := by
        apply List.filter_congr
        intro x hx
        have hxy : ¬ x = d := fun he => hyd (he ▸ hx)
        simp [List.mem_append, hxy]
      rw [List.filter_cons_of_neg (by simp), List.filter_cons_of_pos (by simp [hds]),
        hfeq]
      simp
    · by_cases hys : y ∈ stack
      · rw [List.filter_cons_of_neg (by simp [List.mem_append, hys]),
          List.filter_cons_of_neg (by simp [hys])]
        exact ih hnd2 hdl2
      · have hyd : ¬ y = d := by
          intro he
          exact absurd hdl2 (he ▸ (List.nodup_cons.mp hnd).1)
        rw [List.filter_cons_of_pos (by simp [List.mem_append, hys, hyd]),
          List.filter_cons_of_pos (by simp [hys])]
        have hih := ih hnd2 hdl2
        simp only [List.length_cons]
        omega

theorem remCount_push (u stack : List String) (d : String)
    (hdu : d ∈ u) (hds : ¬ d ∈ stack) :
    remCount u (stack ++ [d]) + 1 = remCount u stack :=
  filter_push_length stack d hds u.dedup u.nodup_dedup (List.mem_dedup.mpr hdu)

/-- Fuel sufficiency: as long as every walkable name belongs to `u` and
the fuel covers the unvisited part of `u`, the walk never runs out of
fuel.  A node already on the per-call visited stack is skipped instead
of re-expanded, so cycles in the map cannot cause divergence. -/
theorem visitList_isSome (m : DepMap) (u : List String)
    (hvals : ∀ x ∈ flatValues m, x ∈ u) :
    ∀ fuel deps stack, (∀ d ∈ deps, d ∈ u) → remCount u stack ≤ fuel →
    (visitList m fuel deps stack).isSome = true := by
  intro fuel deps stack
  induction fuel, deps, stack using visitList.induct m with
  | case1 fuel stack =>
    intro _ _
    rw [visitList_nil]
    rfl
  | case2 fuel stack d rest hd ih =>
    intro hdeps hfuel
    rw [visitList_cons_mem m fuel d rest stack hd]
    exact ih (fun x hx => hdeps x (List.mem_cons_of_mem d hx)) hfuel
  | case3 stack d rest hd =>
    intro hdeps hfuel
    exfalso
    have hdu : d ∈ u := hdeps d (by simp)
    have hpush := remCount_push u stack d hdu hd
    omega
  | case4 stack d rest hd f hnone ih =>
    intro hdeps hfuel
    exfalso
    have hdu : d ∈ u := hdeps d (by simp)
    have hpush := remCount_push u stack d hdu hd
    have hsome := ih (fun x hx => hvals x (depsOf_sub_flatValues m d x hx))
      (by omega)
    rw [hnone] at hsome
    exact absurd hsome (by simp)
  | case5 stack d rest hd f r1 s1 hdesc hnone ih1 ih2 =>
    intro hdeps hfuel
    exfalso
    have hdu : d ∈ u := hdeps d (by simp)
    have hpush := remCount_push u stack d hdu hd
    have hmono : remCount u s1 ≤ remCount u (stack ++ [d]) :=
      remCount_mono u (stack ++ [d]) s1
        (visitList_stack_sub m f (depsOf m d) (stack ++ [d]) r1 s1 hdesc)
    have hsome := ih2 (fun x hx => hdeps x (List.mem_cons_of_mem d hx))
      (by omega)
    rw [hnone] at hsome
    exact absurd hsome (by simp)
  | case6 stack d rest hd f r1 s1 hdesc r2 s2 hsib ih1 ih2 =>
    intro _ _
    rw [visitList_step_some m f d rest stack r1 s1 r2 s2 hd hdesc hsib]
    rfl

/-- `a` requires `b` through one or more dependency edges of the map. -/
inductive Reaches (m : DepMap) : String → String → Prop
  | direct : ∀ {a b : String}, b ∈ depsOf m a → Reaches m a b
  | step : ∀ {a b c : String}, b ∈ depsOf m a → Reaches m b c → Reaches m a c

theorem reaches_trans {m : DepMap} {a b c : String}
    (h1 : Reaches m a b) (h2 : Reaches m b c) : Reaches m a c := by
  revert h2
  induction h1 with
  | direct h =>
    intro h2
    exact Reaches.step h h2
  | step h r ih =>
    intro h2
    exact Reaches.step h (ih h2)

/-- Reachability soundness: every visited name is a name of the walked
list or reachable from one through the dependency edges. -/
theorem visitList_reach (m : DepMap) :
    ∀ fuel deps stack r s', visitList m fuel deps stack = some (r, s') →
    ∀ x ∈ s', x ∈ stack ∨ ∃ z ∈ deps, z = x ∨ Reaches m z x := by
  intro fuel deps stack
  induction fuel, deps, stack using visitList.induct m with
  | case1 fuel stack =>
    intro r s' h
    rw [visitList_nil] at h
    simp only [Option.some.injEq, Prod.mk.injEq] at h
    obtain ⟨-, rfl⟩ := h
    exact fun x hx => Or.inl hx
  | case2 fuel stack d rest hd ih =>
    intro r s' h x hx
    rw [visitList_cons_mem m fuel d rest stack hd] at h
    rcases ih r s' h x hx with h1 | ⟨z, hz, h2⟩
    · exact Or.inl h1
    · exact Or.inr ⟨z, List.mem_cons_of_mem d hz, h2⟩
  | case3 stack d rest hd =>
    intro r s' h
    rw [visitList_cons_zero m d rest stack hd] at h
    exact absurd h (by simp)
  | case4 stack d rest hd f hnone ih =>
    intro r s' h
    rw [visitList_step_dnone m f d rest stack hd hnone] at h
    exact absurd h (by simp)
  | case5 stack d rest hd f r1 s1 hdesc hnone ih1 ih2 =>
    intro r s' h
    rw [visitList_step_snone m f d rest stack r1 s1 hd hdesc hnone] at h
    exact absurd h (by simp)
  | case6 stack d rest hd f r1 s1 hdesc r2 s2 hsib ih1 ih2 =>
    intro r s' h x hx
    rw [visitList_step_some m f d rest stack r1 s1 r2 s2 hd hdesc hsib] at h
    simp only [Option.some.injEq, Prod.mk.injEq] at h
    obtain ⟨-, rfl⟩ := h
    rcases ih2 r2 s2 hsib x hx with h1 | ⟨z, hz, h2⟩
    · rcases ih1 r1 s1 hdesc x h1 with h3 | ⟨z, hz, h2⟩
      · simp only [List.mem_append, List.mem_singleton] at h3
        rcases h3 with h3 | rfl
        · exact Or.inl h3
        · exact Or.inr ⟨x, by simp, Or.inl rfl⟩
      · refine Or.inr ⟨d, by simp, Or.inr ?_⟩
        rcases h2 with rfl | h2
        · exact Reaches.direct hz
        · exact Reaches.step hz h2
    · exact Or.inr ⟨z, List.mem_cons_of_mem d hz, h2⟩

/-- The `visitList` call made by `getDependencies` always succeeds: the
supplied fuel covers every name that can be pushed on the stack. -/
theorem getDependencies_some (m : DepMap) (names : List String) :
    (visitList m (depUniverse m names).length names []).isSome = true := by
  apply visitList_isSome m (depUniverse m names)
  · intro x hx
    exact List.mem_append_right names hx
  · intro d hd
    exact List.mem_append_left (flatValues m) hd
  · exact remCount_le_length (depUniverse m names) []

theorem getDependencies_eq (m : DepMap) (names : List String) :
    ∃ r s', visitList m (depUniverse m names).length names [] = some (r, s') ∧
      getDependencies m names = uniq r := by
  have h := getDependencies_some m names
  cases heq : visitList m (depUniverse m names).length names [] with
  | none =>
    rw [heq] at h
    exact absurd h (by simp)
  | some p =>
    obtain ⟨r1, s1⟩ := p
    refine ⟨r1, s1, rfl, ?_⟩
    unfold getDependencies
    rw [visitListE_eq, heq]

/-- The array form of `getDependencies` returns a transitively closed
name set: every direct dependency of a member is a member. -/
theorem getDependencies_closed (m : DepMap) (names : List String) :
    ∀ x ∈ getDependencies m names, ∀ e ∈ depsOf m x,
      e ∈ getDependencies m names := by
  obtain ⟨r, s', heq, hres⟩ := getDependencies_eq m names
  rw [hres]
  intro x hx e he
  rw [mem_uniq] at hx ⊢
  have hxs : x ∈ s' := visitList_res_sub m _ names [] r s' heq x hx
  have hclosed := visitList_closed m _ names [] r s' heq x hxs (by simp) e he
  rcases visitList_new_in_res m _ names [] r s' heq e hclosed with h1 | h1
  · exact absurd h1 (by simp)
  · exact h1

/-- Reachability soundness for `getDependencies`: every member of the
result is a requested name or reachable from one. -/
theorem getDependencies_sound (m : DepMap) (names : List String) :
    ∀ x ∈ getDependencies m names, x ∈ names ∨ ∃ z ∈ names, Reaches m z x := by
  obtain ⟨r, s', heq, hres⟩ := getDependencies_eq m names
  rw [hres]
  intro x hx
  rw [mem_uniq] at hx
  have hxs : x ∈ s' := visitList_res_sub m _ names [] r s' heq x hx
  rcases visitList_reach m _ names [] r s' heq x hxs with h1 | ⟨z, hz, h2⟩
  · exact absurd h1 (by simp)
  · rcases h2 with rfl | h2
    · exact Or.inl hz
    · exact Or.inr ⟨z, hz, h2⟩

/-!
### `getDependants` (build.js lines 1298-1313)

Iterates over the entries of the dependency map, pushing every map key
whose dependency list contains one of the queried names, and recursing
(with the shared stack) on each pushed key to collect transitive
dependants. -/
def dependantsLoop (m : DepMap) (fuel : Nat)
    (entries : List (String × List String)) (targets stack : List String) :
    Option (List String × List String) :=
  match entries with
  | [] => some ([], stack)
  | (name, deps) :: rest =>
    if ¬ name ∈ stack ∧ ∃ t ∈ targets, t ∈ deps then
      match fuel with
      | 0 => none
      | f + 1 =>
        match dependantsLoop m f m [name] (stack ++ [name]) with
        | none => none
        | some (r1, s1) =>
          match dependantsLoop m (f + 1) rest targets s1 with
          | none => none
          | some (r2, s2) => some (name :: (r1 ++ r2), s2)
    else dependantsLoop m fuel rest targets stack
termination_by (fuel, entries.length)
decreasing_by
  · apply Prod.Lex.left
    omega
  · apply Prod.Lex.right
    simp
  · apply Prod.Lex.right
    simp

/-- One level of the dependants scan with the recursive descent
abstracted as `next`; `dependantsLoopE` iterates it structurally and is
proved equal to `dependantsLoop` (`dependantsLoopE_eq`). -/
def scanWith (next : String → List String → Option (List String × List String))
    (targets : List String) :
    List (String × List String) → List String →
    Option (List String × List String)
  | [], stack => some ([], stack)
  | (name, deps) :: rest, stack =>
    if ¬ name ∈ stack ∧ ∃ t ∈ targets, t ∈ deps then
      match next name (stack ++ [name]) with
      | none => none
      | some (r1, s1) =>
        match scanWith next targets rest s1 with
        | none => none
        | some (r2, s2) => some (name :: (r1 ++ r2), s2)
    else scanWith next targets rest stack

/-- Fuel-structural version of `dependantsLoop`. -/
def dependantsLoopE (m : DepMap) : Nat → List (String × List String) →
    List String → List String → Option (List String × List String)
  | 0, entries, targets, stack =>
    scanWith (fun _ _ => none) targets entries stack
  | fuel + 1, entries, targets, stack =>
    scanWith (fun name s => dependantsLoopE m fuel m [name] s) targets entries
      stack

/-- `getDependants(funcName, depMap)`: all transitive dependants of the
queried names, collected over the map entries with a shared visited
stack and `_.uniq`-ed. -/
def getDependants (m : DepMap) (targets : List String) : List String :=
  match dependantsLoopE m (keysOf m).length m targets [] with
  | some (r, _) => uniq r
  | none => []

theorem dependantsLoop_nil (m : DepMap) (fuel : Nat)
    (targets stack : List String) :
    dependantsLoop m fuel [] targets stack = some ([], stack) := by
  rw [dependantsLoop.eq_def]

theorem dependantsLoop_skip (m : DepMap) (fuel : Nat) (name : String)
    (deps : List String) (rest : List (String × List String))
    (targets stack : List String)
    (h : ¬ (¬ name ∈ stack ∧ ∃ t ∈ targets, t ∈ deps)) :
    dependantsLoop m fuel ((name, deps) :: rest) targets stack =
      dependantsLoop m fuel rest targets stack := by
  conv_lhs => rw [dependantsLoop.eq_def]
  simp [h]

theorem dependantsLoop_zero (m : DepMap) (name : String)
    (deps : List String) (rest : List (String × List String))
    (targets stack : List String)
    (h : ¬ name ∈ stack ∧ ∃ t ∈ targets, t ∈ deps) :
    dependantsLoop m 0 ((name, deps) :: rest) targets stack = none := by
  conv_lhs => rw [dependantsLoop.eq_def]
  simp [h.1, h.2]

theorem dependantsLoop_step_dnone (m : DepMap) (f : Nat) (name : String)
    (deps : List String) (rest : List (String × List String))
    (targets stack : List String)
    (h : ¬ name ∈ stack ∧ ∃ t ∈ targets, t ∈ deps)
    (hdesc : dependantsLoop m f m [name] (stack ++ [name]) = none) :
    dependantsLoop m (f + 1) ((name, deps) :: rest) targets stack = none := by
  conv_lhs => rw [dependantsLoop.eq_def]
  simp [h.1, h.2, hdesc]

theorem dependantsLoop_step_snone (m : DepMap) (f : Nat) (name : String)
    (deps : List String) (rest : List (String × List String))
    (targets stack r1 s1 : List String)
    (h : ¬ name ∈ stack ∧ ∃ t ∈ targets, t ∈ deps)
    (hdesc : dependantsLoop m f m [name] (stack ++ [name]) = some (r1, s1))
    (hsib : dependantsLoop m (f + 1) rest targets s1 = none) :
    dependantsLoop m (f + 1) ((name, deps) :: rest) targets stack = none := by
  conv_lhs => rw [dependantsLoop.eq_def]
  simp [h.1, h.2, hdesc, hsib]

theorem dependantsLoop_step_some (m : DepMap) (f : Nat) (name : String)
    (deps : List String) (rest : List (String × List String))
    (targets stack r1 s1 r2 s2 : List String)
    (h : ¬ name ∈ stack ∧ ∃ t ∈ targets, t ∈ deps)
    (hdesc : dependantsLoop m f m [name] (stack ++ [name]) = some (r1, s1))
    (hsib : dependantsLoop m (f + 1) rest targets s1 = some (r2, s2)) :
    dependantsLoop m (f + 1) ((name, deps) :: rest) targets stack =
      some (name :: (r1 ++ r2), s2) := by
  conv_lhs => rw [dependantsLoop.eq_def]
  simp [h.1, h.2, hdesc, hsib]

theorem scanWith_nil (next : String → List String → Option (List String × List String))
    (targets stack : List String) :
    scanWith next targets [] stack = some ([], stack) := by
  rw [scanWith]

theorem scanWith_cons_skip (next : String → List String → Option (List String × List String))
    (targets : List String) (name : String) (deps : List String)
    (rest : List (String × List String)) (stack : List String)
    (h : ¬ (¬ name ∈ stack ∧ ∃ t ∈ targets, t ∈ deps)) :
    scanWith next targets ((name, deps) :: rest) stack =
      scanWith next targets rest stack := by
  conv_lhs => rw [scanWith]
  rw [if_neg h]

theorem scanWith_cons_new (next : String → List String → Option (List String × List String))
    (targets : List String) (name : String) (deps : List String)
    (rest : List (String × List String)) (stack : List String)
    (h : ¬ name ∈ stack ∧ ∃ t ∈ targets, t ∈ deps) :
    scanWith next targets ((name, deps) :: rest) stack =
      match next name (stack ++ [name]) with
      | none => none
      | some (r1, s1) =>
        match scanWith next targets rest s1 with
        | none => none
        | some (r2, s2) => some (name :: (r1 ++ r2), s2) := by
  conv_lhs => rw [scanWith]
  rw [if_pos h]

theorem dependantsLoopE_zero (m : DepMap)
    (entries : List (String × List String)) (targets stack : List String) :
    dependantsLoopE m 0 entries targets stack =
      scanWith (fun _ _ => none) targets entries stack := by
  rw [dependantsLoopE]

theorem dependantsLoopE_succ (m : DepMap) (f : Nat)
    (entries : List (String × List String)) (targets stack : List String) :
    dependantsLoopE m (f + 1) entries targets stack =
      scanWith (fun name s => dependantsLoopE m f m [name] s) targets entries
        stack := by
  rw [dependantsLoopE]

/-- The structural implementation agrees with the recursive
specification everywhere. -/
theorem dependantsLoopE_eq (m : DepMap) :
    ∀ fuel entries targets stack,
    dependantsLoopE m fuel entries targets stack =
      dependantsLoop m fuel entries targets stack := by
  intro fuel entries targets stack
  induction fuel, entries, targets, stack using dependantsLoop.induct m with
  | case1 fuel targets stack =>
    cases fuel with
    | zero => rw [dependantsLoopE_zero, scanWith_nil, dependantsLoop_nil]
    | succ f => rw [dependantsLoopE_succ, scanWith_nil, dependantsLoop_nil]
  | case2 targets stack name deps rest hc =>
    rw [dependantsLoop_zero m name deps rest targets stack hc,
      dependantsLoopE_zero, scanWith_cons_new _ targets name deps rest stack hc]
  | case3 targets stack name deps rest hc f hnone ih1 =>
    rw [dependantsLoop_step_dnone m f name deps rest targets stack hc hnone,
      dependantsLoopE_succ, scanWith_cons_new _ targets name deps rest stack hc]
    simp only [ih1, hnone]
  | case4 targets stack name deps rest hc f r1 s1 hdesc hnone ih1 ih2 =>
    rw [dependantsLoop_step_snone m f name deps rest targets stack r1 s1 hc
      hdesc hnone, dependantsLoopE_succ,
      scanWith_cons_new _ targets name deps rest stack hc]
    simp only [ih1, hdesc]
    rw [← dependantsLoopE_succ, ih2, hnone]
  | case5 targets stack name deps rest hc f r1 s1 hdesc r2 s2 hsib ih1 ih2 =>
    rw [dependantsLoop_step_some m f name deps rest targets stack r1 s1 r2 s2 hc
      hdesc hsib, dependantsLoopE_succ,
      scanWith_cons_new _ targets name deps rest stack hc]
    simp only [ih1, hdesc]
    rw [← dependantsLoopE_succ, ih2, hsib]
  | case6 fuel targets stack name deps rest hc ih =>
    rw [dependantsLoop_skip m fuel name deps rest targets stack hc, ← ih]
    cases fuel with
    | zero =>
      rw [dependantsLoopE_zero, dependantsLoopE_zero]
      exact scanWith_cons_skip _ targets name deps rest stack hc
    | succ f =>
      rw [dependantsLoopE_succ, dependantsLoopE_succ]
      exact scanWith_cons_skip _ targets name deps rest stack hc

/-- The shared visited stack only grows during a dependants walk. -/
theorem dependantsLoop_stack_sub (m : DepMap) :
    ∀ fuel entries targets stack r s',
    dependantsLoop m fuel entries targets stack = some (r, s') →
    ∀ x ∈ stack, x ∈ s' := by
  intro fuel entries targets stack
  induction fuel, entries, targets, stack using dependantsLoop.induct m with
  | case1 fuel targets stack =>
    intro r s' h
    rw [dependantsLoop_nil] at h
    simp only [Option.some.injEq, Prod.mk.injEq] at h
    obtain ⟨-, rfl⟩ := h
    exact fun x hx => hx
  | case2 targets stack name deps rest hc =>
    intro r s' h
    rw [dependantsLoop_zero m name deps rest targets stack hc] at h
    exact absurd h (by simp)
  | case3 targets stack name deps rest hc f hnone ih =>
    intro r s' h
    rw [dependantsLoop_step_dnone m f name deps rest targets stack hc hnone] at h
    exact absurd h (by simp)
  | case4 targets stack name deps rest hc f r1 s1 hdesc hnone ih1 ih2 =>
    intro r s' h
    rw [dependantsLoop_step_snone m f name deps rest targets stack r1 s1 hc
      hdesc hnone] at h
    exact absurd h (by simp)
  | case5 targets stack name deps rest hc f r1 s1 hdesc r2 s2 hsib ih1 ih2 =>
    intro r s' h
    rw [dependantsLoop_step_some m f name deps rest targets stack r1 s1 r2 s2 hc
      hdesc hsib] at h
    simp only [Option.some.injEq, Prod.mk.injEq] at h
    obtain ⟨-, rfl⟩ := h
    intro x hx
    exact ih2 r2 s2 hsib x
      (ih1 r1 s1 hdesc x (by simp [List.mem_append, hx]))
  | case6 fuel targets stack name deps rest hc ih =>
    intro r s' h
    rw [dependantsLoop_skip m fuel name deps rest targets stack hc] at h
    exact ih r s' h

/-- Every name on the final stack was either there initially or is in
the accumulated dependants result. -/
theorem dependantsLoop_new_in_res (m : DepMap) :
    ∀ fuel entries targets stack r s',
    dependantsLoop m fuel entries targets stack = some (r, s') →
    ∀ x ∈ s', x ∈ stack ∨ x ∈ r := by
  intro fuel entries targets stack
  induction fuel, entries, targets, stack using dependantsLoop.induct m with
  | case1 fuel targets stack =>
    intro r s' h
    rw [dependantsLoop_nil] at h
    simp only [Option.some.injEq, Prod.mk.injEq] at h
    obtain ⟨-, rfl⟩ := h
    exact fun x hx => Or.inl hx
  | case2 targets stack name deps rest hc =>
    intro r s' h
    rw [dependantsLoop_zero m name deps rest targets stack hc] at h
    exact absurd h (by simp)
  | case3 targets stack name deps rest hc f hnone ih =>
    intro r s' h
    rw [dependantsLoop_step_dnone m f name deps rest targets stack hc hnone] at h
    exact absurd h (by simp)
  | case4 targets stack name deps rest hc f r1 s1 hdesc hnone ih1 ih2 =>
    intro r s' h
    rw [dependantsLoop_step_snone m f name deps rest targets stack r1 s1 hc
      hdesc hnone] at h
    exact absurd h (by simp)
  | case5 targets stack name deps rest hc f r1 s1 hdesc r2 s2 hsib ih1 ih2 =>
    intro r s' h x hx
    rw [dependantsLoop_step_some m f name deps rest targets stack r1 s1 r2 s2 hc
      hdesc hsib] at h
    simp only [Option.some.injEq, Prod.mk.injEq] at h
    obtain ⟨hr, rfl⟩ := h
    subst hr
    rcases ih2 r2 s2 hsib x hx with hx1 | hx1
    · rcases ih1 r1 s1 hdesc x hx1 with hx2 | hx2
      · simp only [List.mem_append, List.mem_singleton] at hx2
        rcases hx2 with hx2 | rfl
        · exact Or.inl hx2
        · exact Or.inr (by simp)
      · exact Or.inr (by simp [hx2])
    · exact Or.inr (by simp [hx1])
  | case6 fuel targets stack name deps rest hc ih =>
    intro r s' h
    rw [dependantsLoop_skip m fuel name deps rest targets stack hc] at h
    exact ih r s' h

/-- Every processed entry whose dependency list meets the queried names
ends up on the final stack. -/
theorem dependantsLoop_matched (m : DepMap) :
    ∀ fuel entries targets stack r s',
    dependantsLoop m fuel entries targets stack = some (r, s') →
    ∀ nm ds, (nm, ds) ∈ entries → (∃ t ∈ targets, t ∈ ds) → nm ∈ s' := by
  intro fuel entries targets stack
  induction fuel, entries, targets, stack using dependantsLoop.induct m with
  | case1 fuel targets stack =>
    intro r s' h nm ds hmem
    exact absurd hmem (by simp)
  | case2 targets stack name deps rest hc =>
    intro r s' h
    rw [dependantsLoop_zero m name deps rest targets stack hc] at h
    exact absurd h (by simp)
  | case3 targets stack name deps rest hc f hnone ih =>
    intro r s' h
    rw [dependantsLoop_step_dnone m f name deps rest targets stack hc hnone] at h
    exact absurd h (by simp)
  | case4 targets stack name deps rest hc f r1 s1 hdesc hnone ih1 ih2 =>
    intro r s' h
    rw [dependantsLoop_step_snone m f name deps rest targets stack r1 s1 hc
      hdesc hnone] at h
    exact absurd h (by simp)
  | case5 targets stack name deps rest hc f r1 s1 hdesc r2 s2 hsib ih1 ih2 =>
    intro r s' h nm ds hmem hex
    rw [dependantsLoop_step_some m f name deps rest targets stack r1 s1 r2 s2 hc
      hdesc hsib] at h
    simp only [Option.some.injEq, Prod.mk.injEq] at h
    obtain ⟨-, rfl⟩ := h
    rcases List.mem_cons.mp hmem with heq | hmem2
    · obtain ⟨rfl, -⟩ := Prod.mk.injEq .. ▸ heq
      exact dependantsLoop_stack_sub m (f + 1) rest targets s1 r2 s2 hsib nm
        (dependantsLoop_stack_sub m f m [nm] (stack ++ [nm]) r1 s1 hdesc nm
          (by simp))
    · exact ih2 r2 s2 hsib nm ds hmem2 hex
  | case6 fuel targets stack name deps rest hc ih =>
    intro r s' h nm ds hmem hex
    rw [dependantsLoop_skip m fuel name deps rest targets stack hc] at h
    rcases List.mem_cons.mp hmem with heq | hmem2
    · have heq2 : nm = name ∧ ds = deps := by
        constructor
        · exact congrArg Prod.fst heq
        · exact congrArg Prod.snd heq
      obtain ⟨rfl, rfl⟩ := heq2
      rcases Decidable.not_and_iff_or_not.mp hc with h1 | h2
      · have hstk : nm ∈ stack := Decidable.not_not.mp h1
        exact dependantsLoop_stack_sub m fuel rest targets stack r s' h nm hstk
      · exact absurd hex h2
    · exact ih r s' h nm ds hmem2 hex

/-- Every freshly pushed name had all of its direct dependants (over the
whole map) collected onto the final stack: the descent with the pushed
name as the sole query scans every map entry. -/
theorem dependantsLoop_closed (m : DepMap) :
    ∀ fuel entries targets stack r s',
    dependantsLoop m fuel entries targets stack = some (r, s') →
    ∀ y ∈ s', ¬ y ∈ stack → ∀ nm ds, (nm, ds) ∈ m → y ∈ ds → nm ∈ s' := by
  intro fuel entries targets stack
  induction fuel, entries, targets, stack using dependantsLoop.induct m with
  | case1 fuel targets stack =>
    intro r s' h
    rw [dependantsLoop_nil] at h
    simp only [Option.some.injEq, Prod.mk.injEq] at h
    obtain ⟨-, rfl⟩ := h
    intro y hy hny
    exact absurd hy hny
  | case2 targets stack name deps rest hc =>
    intro r s' h
    rw [dependantsLoop_zero m name deps rest targets stack hc] at h
    exact absurd h (by simp)
  | case3 targets stack name deps rest hc f hnone ih =>
    intro r s' h
    rw [dependantsLoop_step_dnone m f name deps rest targets stack hc hnone] at h
    exact absurd h (by simp)
  | case4 targets stack name deps rest hc f r1 s1 hdesc hnone ih1 ih2 =>
    intro r s' h
    rw [dependantsLoop_step_snone m f name deps rest targets stack r1 s1 hc
      hdesc hnone] at h
    exact absurd h (by simp)
  | case5 targets stack name deps rest hc f r1 s1 hdesc r2 s2 hsib ih1 ih2 =>
    intro r s' h y hy hny nm ds hentry hyds
    rw [dependantsLoop_step_some m f name deps rest targets stack r1 s1 r2 s2 hc
      hdesc hsib] at h
    simp only [Option.some.injEq, Prod.mk.injEq] at h
    obtain ⟨-, rfl⟩ := h
    by_cases hy1 : y ∈ s1
    · by_cases hyn : y = name
      · subst hyn
        exact dependantsLoop_stack_sub m (f + 1) rest targets s1 r2 s2 hsib nm
          (dependantsLoop_matched m f m [y] (stack ++ [y]) r1 s1 hdesc nm ds
            hentry ⟨y, by simp, hyds⟩)
      · exact dependantsLoop_stack_sub m (f + 1) rest targets s1 r2 s2 hsib nm
          (ih1 r1 s1 hdesc y hy1 (by simp [hny, hyn]) nm ds hentry hyds)
    · exact ih2 r2 s2 hsib y hy hy1 nm ds hentry hyds
  | case6 fuel targets stack name deps rest hc ih =>
    intro r s' h
    rw [dependantsLoop_skip m fuel name deps rest targets stack hc] at h
    exact ih r s' h

/-- Fuel sufficiency for the dependants walk: only map keys are ever
pushed, so fuel covering the unvisited keys is enough. -/
theorem dependantsLoop_isSome (m : DepMap) (u : List String)
    (hm : ∀ p ∈ m, p.1 ∈ u) :
    ∀ fuel entries targets stack, (∀ p ∈ entries, p.1 ∈ u) →
    remCount u stack ≤ fuel →
    (dependantsLoop m fuel entries targets stack).isSome = true := by
  intro fuel entries targets stack
  induction fuel, entries, targets, stack using dependantsLoop.induct m with
  | case1 fuel targets stack =>
    intro _ _
    rw [dependantsLoop_nil]
    rfl
  | case2 targets stack name deps rest hc =>
    intro hent hfuel
    exfalso
    have hnu : name ∈ u := hent (name, deps) (by simp)
    have hpush := remCount_push u stack name hnu hc.1
    omega
  | case3 targets stack name deps rest hc f hnone ih =>
    intro hent hfuel
    exfalso
    have hnu : name ∈ u := hent (name, deps) (by simp)
    have hpush := remCount_push u stack name hnu hc.1
    have hsome := ih hm (by omega)
    rw [hnone] at hsome
    exact absurd hsome (by simp)
  | case4 targets stack name deps rest hc f r1 s1 hdesc hnone ih1 ih2 =>
    intro hent hfuel
    exfalso
    have hnu : name ∈ u := hent (name, deps) (by simp)
    have hpush := remCount_push u stack name hnu hc.1
    have hmono : remCount u s1 ≤ remCount u (stack ++ [name]) :=
      remCount_mono u (stack ++ [name]) s1
        (dependantsLoop_stack_sub m f m [name] (stack ++ [name]) r1 s1 hdesc)
    have hsome := ih2 (fun p hp => hent p (List.mem_cons_of_mem (name, deps) hp))
      (by omega)
    rw [hnone] at hsome
    exact absurd hsome (by simp)
  | case5 targets stack name deps rest hc f r1 s1 hdesc r2 s2 hsib ih1 ih2 =>
    intro _ _
    rw [dependantsLoop_step_some m f name deps rest targets stack r1 s1 r2 s2 hc
      hdesc hsib]
    rfl
  | case6 fuel targets stack name deps rest hc ih =>
    intro hent hfuel
    rw [dependantsLoop_skip m fuel name deps rest targets stack hc]
    exact ih (fun p hp => hent p (List.mem_cons_of_mem (name, deps) hp)) hfuel

theorem getDependants_some (m : DepMap) (targets : List String) :
    (dependantsLoop m (keysOf m).length m targets []).isSome = true := by
  apply dependantsLoop_isSome m (keysOf m)
  · intro p hp
    exact List.mem_map_of_mem (fun q => q.1) hp
  · intro p hp
    exact List.mem_map_of_mem (fun q => q.1) hp
  · exact remCount_le_length (keysOf m) []

theorem getDependants_eq (m : DepMap) (targets : List String) :
    ∃ r s', dependantsLoop m (keysOf m).length m targets [] = some (r, s') ∧
      getDependants m targets = uniq r := by
  have h := getDependants_some m targets
  cases heq : dependantsLoop m (keysOf m).length m targets [] with
  | none =>
    rw [heq] at h
    exact absurd h (by simp)
  | some p =>
    obtain ⟨r1, s1⟩ := p
    refine ⟨r1, s1, rfl, ?_⟩
    unfold getDependants
    rw [dependantsLoopE_eq, heq]

/-- The entry behind a `depsOf` hit really is an entry of the map. -/
theorem entry_of_mem_depsOf {m : DepMap} {y x : String}
    (h : x ∈ depsOf m y) : (y, depsOf m y) ∈ m := by
  rw [depsOf.eq_def] at h ⊢
  cases hfind : m.find? (fun p => p.1 == y) with
  | none =>
    rw [hfind] at h
    exact absurd h (by simp)
  | some p =>
    obtain ⟨p1, p2⟩ := p
    have hb := List.find?_some hfind
    have hp1 : p1 = y := eq_of_beq hb
    have hmem : (p1, p2) ∈ m := List.mem_of_find?_eq_some hfind
    rw [hp1] at hmem
    exact hmem

/-- Completeness of `getDependants`: every name that transitively
depends on a queried name is collected. -/
theorem getDependants_complete (m : DepMap) (targets : List String) :
    ∀ y x, Reaches m y x → x ∈ targets → y ∈ getDependants m targets := by
  obtain ⟨r, s', heq, hres⟩ := getDependants_eq m targets
  have habsorb : ∀ y x, x ∈ depsOf m y → (x ∈ targets ∨ x ∈ s') → y ∈ s' := by
    intro y x hdep hcase
    have hentry := entry_of_mem_depsOf hdep
    rcases hcase with ht | hs
    · exact dependantsLoop_matched m (keysOf m).length m targets [] r s' heq y
        (depsOf m y) hentry ⟨x, ht, hdep⟩
    · rcases dependantsLoop_new_in_res m (keysOf m).length m targets [] r s' heq
        x hs with h1 | -
      · exact absurd h1 (by simp)
      · exact dependantsLoop_closed m (keysOf m).length m targets [] r s' heq x
          hs (by simp) y (depsOf m y) hentry hdep
  intro y x hreach hx
  have hstk : y ∈ s' := by
    induction hreach with
    | direct hdep => exact habsorb _ _ hdep (Or.inl hx)
    | step hdep hr ih => exact habsorb _ _ hdep (Or.inr (ih hx))
  rw [hres, mem_uniq]
  rcases dependantsLoop_new_in_res m (keysOf m).length m targets [] r s' heq y
    hstk with h1 | h1
  · exact absurd h1 (by simp)
  · exact h1

/-!
### The dependency data of build.js (lines 51-328, 466-649)

`funcDependencyMap`, `propDependencyMap`, `varDependencyMap` and
`aliasToRealMap` transcribed from the source; plus the name lists used
by the build-set computation. -/
def funcDependencyMap : DepMap := [
  ("templateSettings", ["escape"]),
  ("defaultsIteratorOptions", ["keys"]),
  ("eachIteratorOptions", ["keys"]),
  ("htmlUnescapes", ["invert"]),
  ("reEscapedHtml", ["keys"]),
  ("reUnescapedHtml", ["keys"]),
  ("after", ["isFunction"]),
  ("assign", ["createIterator"]),
  ("at", ["baseFlatten", "isString"]),
  ("bind", ["createBound"]),
  ("bindAll", ["baseFlatten", "bind", "functions"]),
  ("bindKey", ["createBound"]),
  ("chain", ["lodashWrapper"]),
  ("clone", ["baseClone", "baseCreateCallback"]),
  ("cloneDeep", ["baseClone", "baseCreateCallback"]),
  ("compact", []),
  ("compose", ["isFunction"]),
  ("contains", ["baseEach", "getIndexOf", "isString"]),
  ("countBy", ["createAggregator"]),
  ("createCallback", ["baseCreateCallback", "baseIsEqual", "isObject", "keys"]),
  ("curry", ["createBound"]),
  ("debounce", ["isFunction", "isObject"]),
  ("defaults", ["createIterator"]),
  ("defer", ["isFunction"]),
  ("delay", ["isFunction"]),
  ("difference", ["baseFlatten", "cacheIndexOf", "createCache", "getIndexOf", "releaseObject"]),
  ("escape", ["escapeHtmlChar", "keys"]),
  ("every", ["baseEach", "createCallback", "isArray"]),
  ("filter", ["baseEach", "createCallback", "isArray"]),
  ("find", ["baseEach", "createCallback", "isArray"]),
  ("findIndex", ["createCallback"]),
  ("findLastIndex", ["createCallback"]),
  ("findKey", ["createCallback", "forOwn"]),
  ("findLast", ["createCallback", "forEachRight"]),
  ("findLastKey", ["createCallback", "forOwnRight"]),
  ("first", ["createCallback", "slice"]),
  ("flatten", ["baseFlatten", "map"]),
  ("forEach", ["baseCreateCallback", "baseEach", "isArray"]),
  ("forEachRight", ["baseCreateCallback", "forEach", "isString", "keys"]),
  ("forIn", ["createIterator"]),
  ("forInRight", ["baseCreateCallback", "forIn"]),
  ("forOwn", ["createIterator"]),
  ("forOwnRight", ["baseCreateCallback", "keys"]),
  ("functions", ["forIn", "isFunction"]),
  ("groupBy", ["createAggregator"]),
  ("has", []),
  ("identity", []),
  ("indexBy", ["createAggregator"]),
  ("indexOf", ["baseIndexOf", "sortedIndex"]),
  ("initial", ["createCallback", "slice"]),
  ("intersection", ["cacheIndexOf", "createCache", "getArray", "getIndexOf", "releaseArray", "releaseObject"]),
  ("invert", ["keys"]),
  ("invoke", ["forEach"]),
  ("isArguments", []),
  ("isArray", []),
  ("isBoolean", []),
  ("isDate", []),
  ("isElement", []),
  ("isEmpty", ["forOwn", "isArguments", "isFunction"]),
  ("isEqual", ["baseCreateCallback", "baseIsEqual"]),
  ("isFinite", []),
  ("isFunction", []),
  ("isNaN", ["isNumber"]),
  ("isNull", []),
  ("isNumber", []),
  ("isObject", []),
  ("isPlainObject", ["isArguments", "shimIsPlainObject"]),
  ("isRegExp", []),
  ("isString", []),
  ("isUndefined", []),
  ("keys", ["isArguments", "isObject", "shimKeys"]),
  ("last", ["createCallback", "slice"]),
  ("lastIndexOf", []),
  ("lodash", ["isArray", "lodashWrapper"]),
  ("map", ["baseEach", "createCallback", "isArray"]),
  ("max", ["baseEach", "charAtCallback", "createCallback", "isArray", "isString"]),
  ("memoize", ["isFunction"]),
  ("merge", ["baseCreateCallback", "baseMerge", "getArray", "isObject", "releaseArray"]),
  ("min", ["baseEach", "charAtCallback", "createCallback", "isArray", "isString"]),
  ("mixin", ["forEach", "functions", "isFunction", "lodash"]),
  ("noConflict", []),
  ("omit", ["baseFlatten", "createCallback", "forIn", "getIndexOf"]),
  ("once", ["isFunction"]),
  ("pairs", ["keys"]),
  ("parseInt", ["isString"]),
  ("partial", ["createBound"]),
  ("partialRight", ["createBound"]),
  ("pick", ["baseFlatten", "createCallback", "forIn", "isObject"]),
  ("pluck", ["map"]),
  ("pull", []),
  ("random", []),
  ("range", []),
  ("reduce", ["baseCreateCallback", "baseEach", "isArray"]),
  ("reduceRight", ["baseCreateCallback", "forEachRight"]),
  ("reject", ["createCallback", "filter"]),
  ("remove", ["createCallback"]),
  ("rest", ["createCallback", "slice"]),
  ("result", ["isFunction"]),
  ("runInContext", ["defaults", "pick"]),
  ("sample", ["random", "shuffle", "toArray"]),
  ("shuffle", ["forEach", "random"]),
  ("size", ["keys"]),
  ("some", ["baseEach", "createCallback", "isArray"]),
  ("sortBy", ["compareAscending", "createCallback", "forEach", "getObject", "releaseObject"]),
  ("sortedIndex", ["createCallback", "identity"]),
  ("tap", []),
  ("template", ["defaults", "escape", "escapeStringChar", "keys", "values"]),
  ("throttle", ["debounce", "getObject", "isFunction", "isObject", "releaseObject"]),
  ("times", ["baseCreateCallback"]),
  ("toArray", ["isString", "slice", "values"]),
  ("transform", ["baseCreateCallback", "baseEach", "createObject", "forOwn", "isArray"]),
  ("unescape", ["keys", "unescapeHtmlChar"]),
  ("union", ["baseFlatten", "baseUniq"]),
  ("uniq", ["baseUniq", "createCallback"]),
  ("uniqueId", []),
  ("values", ["keys"]),
  ("where", ["filter"]),
  ("without", ["difference"]),
  ("wrap", ["isFunction"]),
  ("wrapperChain", []),
  ("wrapperToString", []),
  ("wrapperValueOf", []),
  ("zip", ["max", "pluck"]),
  ("zipObject", []),
  ("baseClone", ["assign", "baseEach", "forOwn", "getArray", "isArray", "isObject", "isNode", "releaseArray", "slice"]),
  ("baseCreateCallback", ["bind", "identity", "setBindData"]),
  ("baseEach", ["createIterator"]),
  ("baseFlatten", ["isArguments", "isArray"]),
  ("baseIndexOf", []),
  ("baseIsEqual", ["forIn", "getArray", "isArguments", "isFunction", "isNode", "releaseArray"]),
  ("baseMerge", ["forEach", "forOwn", "isArray", "isPlainObject"]),
  ("baseUniq", ["cacheIndexOf", "createCache", "getArray", "getIndexOf", "releaseArray", "releaseObject"]),
  ("cacheIndexOf", ["baseIndexOf"]),
  ("cachePush", []),
  ("charAtCallback", []),
  ("compareAscending", []),
  ("createAggregator", ["createCallback", "forEach"]),
  ("createBound", ["createObject", "isFunction", "isObject", "setBindData"]),
  ("createCache", ["cachePush", "getObject", "releaseObject"]),
  ("createIterator", ["baseCreateCallback", "getObject", "isArguments", "isArray", "isString", "iteratorTemplate", "releaseObject"]),
  ("createObject", ["isObject", "noop"]),
  ("escapeHtmlChar", []),
  ("escapeStringChar", []),
  ("getArray", []),
  ("getIndexOf", ["baseIndexOf", "indexOf"]),
  ("getObject", []),
  ("isNode", []),
  ("iteratorTemplate", []),
  ("lodashWrapper", []),
  ("noop", []),
  ("releaseArray", []),
  ("releaseObject", []),
  ("setBindData", ["getObject", "noop", "releaseObject"]),
  ("shimIsPlainObject", ["forIn", "isArguments", "isFunction", "isNode"]),
  ("shimKeys", ["createIterator"]),
  ("slice", []),
  ("unescapeHtmlChar", []),
  ("findWhere", ["where"])]

def propDependencyMap : DepMap := [
  ("at", ["support"]),
  ("baseClone", ["support"]),
  ("baseIsEqual", ["support"]),
  ("bind", ["support"]),
  ("createBound", ["support"]),
  ("forEachRight", ["support"]),
  ("isArguments", ["support"]),
  ("isEmpty", ["support"]),
  ("isPlainObject", ["support"]),
  ("iteratorTemplate", ["support"]),
  ("keys", ["support"]),
  ("shimIsPlainObject", ["support"]),
  ("template", ["templateSettings"]),
  ("toArray", ["support"])]

def varDependencyMap : DepMap := [
  ("assign", ["defaultsIteratorOptions"]),
  ("baseEach", ["eachIteratorOptions"]),
  ("baseIsEqual", ["objectTypes"]),
  ("baseUniq", ["largeArraySize"]),
  ("bind", ["reNative"]),
  ("cacheIndexOf", ["keyPrefix"]),
  ("cachePush", ["keyPrefix"]),
  ("createIterator", ["indicatorObject", "objectTypes"]),
  ("createBound", ["reNative"]),
  ("createObject", ["reNative"]),
  ("debounce", ["reNative"]),
  ("defaults", ["defaultsIteratorOptions"]),
  ("defer", ["objectTypes", "reNative"]),
  ("difference", ["largeArraySize"]),
  ("escape", ["reUnescapedHtml"]),
  ("escapeHtmlChar", ["htmlEscapes"]),
  ("forIn", ["eachIteratorOptions", "forOwnIteratorOptions"]),
  ("forOwn", ["eachIteratorOptions", "forOwnIteratorOptions"]),
  ("forOwnIteratorOptions", ["eachIteratorOptions"]),
  ("getArray", ["arrayPool"]),
  ("getObject", ["objectPool"]),
  ("htmlUnescapes", ["htmlEscapes"]),
  ("intersection", ["largeArraySize"]),
  ("isArray", ["reNative"]),
  ("isObject", ["objectTypes"]),
  ("isPlainObject", ["reNative"]),
  ("isRegExp", ["objectTypes"]),
  ("keys", ["reNative"]),
  ("memoize", ["keyPrefix"]),
  ("reEscapedHtml", ["htmlUnescapes"]),
  ("releaseArray", ["arrayPool", "maxPoolSize"]),
  ("releaseObject", ["maxPoolSize", "objectPool"]),
  ("reUnescapedHtml", ["htmlEscapes"]),
  ("setBindData", ["reNative"]),
  ("support", ["reNative"]),
  ("template", ["reInterpolate"]),
  ("templateSettings", ["reInterpolate"]),
  ("unescape", ["reEscapedHtml"]),
  ("unescapeHtmlChar", ["htmlUnescapes"])]

def aliasToRealMap : List (String × String) := [
  ("all", "every"),
  ("any", "some"),
  ("collect", "map"),
  ("detect", "find"),
  ("drop", "rest"),
  ("each", "forEach"),
  ("eachRight", "forEachRight"),
  ("extend", "assign"),
  ("findWhere", "find"),
  ("foldl", "reduce"),
  ("foldr", "reduceRight"),
  ("head", "first"),
  ("include", "contains"),
  ("inject", "reduce"),
  ("methods", "functions"),
  ("object", "zipObject"),
  ("select", "filter"),
  ("tail", "rest"),
  ("take", "first"),
  ("unique", "uniq"),
  ("unzip", "zip"),
  ("value", "wrapperValueOf")]

def backboneDependencies : List String :=
  ["bind", "bindAll", "chain", "clone", "contains", "countBy", "defaults", "escape", "every", "extend", "filter", "find", "first", "forEach", "groupBy", "has", "indexOf", "initial", "invert", "invoke", "isArray", "isEmpty", "isEqual", "isFunction", "isObject", "isRegExp", "isString", "keys", "last", "lastIndexOf", "lodash", "map", "max", "min", "mixin", "omit", "once", "pairs", "pick", "reduce", "reduceRight", "reject", "rest", "result", "shuffle", "size", "some", "sortBy", "sortedIndex", "toArray", "uniqueId", "value", "values", "without", "wrapperChain", "wrapperValueOf"]

def privateFuncs : List String :=
  ["baseClone", "baseCreateCallback", "baseEach", "baseFlatten", "baseIndexOf", "baseIsEqual", "baseMerge", "baseUniq", "cacheIndexOf", "cachePush", "charAtCallback", "compareAscending", "createBound", "createCache", "createIterator", "escapeHtmlChar", "escapeStringChar", "getArray", "getObject", "isNode", "iteratorTemplate", "lodashWrapper", "noop", "releaseArray", "releaseObject", "setBindData", "shimIsPlainObject", "shimKeys", "slice", "unescapeHtmlChar"]

def lodashOnlyFuncs : List String :=
  ["at", "bindKey", "cloneDeep", "createCallback", "curry", "findIndex", "findKey", "findLast", "findLastIndex", "findLastKey", "forEachRight", "forIn", "forInRight", "forOwn", "forOwnRight", "indexBy", "isPlainObject", "merge", "parseInt", "partialRight", "pull", "remove", "runInContext", "sample", "transform", "wrapperToString"]

/-!
### `getRealName` (build.js lines 1466-1472)

`(!hasOwnProperty.call(depMap || funcDependencyMap, funcName) &&
hasOwnProperty.call(aliasToRealMap, funcName) && aliasToRealMap[funcName])
|| funcName`: the alias table is consulted only when the queried name is
not itself a key of the dependency map (all alias targets are non-empty
strings, hence truthy). -/
def aliasLookup (funcName : String) : Option String :=
  (aliasToRealMap.find? (fun p => p.1 == funcName)).map (fun p => p.2)

def getRealName (m : DepMap) (funcName : String) : String :=
  if hasKey m funcName = false then
    match aliasLookup funcName with
    | some real => real
    | none => funcName
  else funcName

/-!
### The `buildFuncs` computation (build.js lines 3044-3077)

`allFuncsL` stands for the `allFuncs` list of line 639, whose final
filter consults the external lodash runtime (`typeof _[key]`), so it is
a parameter here; the derived lodash/underscore defaults follow lines
645-648. -/
def lodashFuncsOf (allFuncsL : List String) : List String :=
  difference allFuncsL (privateFuncs ++ ["findWhere"])

def underscoreFuncsOf (allFuncsL : List String) : List String :=
  difference allFuncsL (lodashOnlyFuncs ++ privateFuncs)

/-- Lines 3044-3059: explicit `include` names win; otherwise, when no
properties or variables were requested, the backbone, underscore or
full lodash defaults apply; otherwise `result` stays undefined. -/
def pickResult (includeFuncs includeProps includeVars : List String)
    (isBackbone isUnderscore : Bool) (allFuncsL : List String) :
    Option (List String) :=
  let result0 : Option (List String) :=
    if ¬ includeFuncs = [] then some includeFuncs else none
  if includeProps = [] ∧ includeVars = [] then
    let r1 := if isBackbone = true ∧ result0 = none then
      some backboneDependencies else result0
    let r2 := if isUnderscore = true ∧ r1 = none then
      some (underscoreFuncsOf allFuncsL) else r1
    if r2 = none then some (lodashFuncsOf allFuncsL) else r2
  else result0

/-- Lines 3060-3065: the `"none"` sentinel.  `result == 'none'` is a JS
array-to-string comparison, true exactly when the list is the single
entry `"none"`; otherwise `_.pull(result, 'none')` merely drops the
sentinel entries. -/
def applyNone : Option (List String) → Option (List String)
  | none => none
  | some r =>
    some (if r = ["none"] then [] else r.filter (fun x => ¬ x = "none"))

/-- Lines 3067-3069: `result = _.union(result, plusFuncs)` when `plus`
names exist (`_.union` of an undefined result flattens to the plus list
alone, deduplicated). -/
def applyPlus (r : Option (List String)) (plusFuncs : List String) :
    Option (List String) :=
  if plusFuncs = [] then r
  else
    match r with
    | none => some (uniq plusFuncs)
    | some l => some (union l plusFuncs)

/-- Lines 3070-3072: subtract the `minus` names together with every
dependant of a `minus`-ed name (`_.difference` of an undefined result is
the empty list). -/
def applyMinus (m : DepMap) (r : Option (List String))
    (minusFuncs : List String) : Option (List String) :=
  if minusFuncs = [] then r
  else
    match r with
    | none => some []
    | some l => some (difference l (minusFuncs ++ getDependants m minusFuncs))

/-- Lines 3073-3075: the modularize build drops `runInContext`. -/
def applyModularize (r : Option (List String)) (isModularize : Bool) :
    Option (List String) :=
  if isModularize = true then
    r.map (fun l => l.filter (fun x => ¬ x = "runInContext"))
  else r

/-- Line 3076: `getDependencies(result, funcDepMap)`; an undefined
result yields the empty list. -/
def closeResult (m : DepMap) : Option (List String) → List String
  | none => []
  | some l => getDependencies m l

/-- `buildFuncs` as computed by `build` (lines 3044-3077), before the
property/variable expansion. -/
def computeBuildFuncs (m : DepMap) (allFuncsL : List String)
    (includeFuncs includeProps includeVars plusFuncs minusFuncs : List String)
    (isBackbone isUnderscore isModularize : Bool) : List String :=
  closeResult m
    (applyModularize
      (applyMinus m
        (applyPlus
          (applyNone
            (pickResult includeFuncs includeProps includeVars isBackbone
              isUnderscore allFuncsL))
          plusFuncs)
        minusFuncs)
      isModularize)

/-!
### The property/variable expansion (build.js lines 3079-3106)

`expand(result, depMap, funcNames, stack)` iterates names (map keys at
the top level, already-collected function dependencies below), appends
the per-name identifiers to `result`, pushes the function dependencies
of those identifiers into the running `buildFuncs`, and recurses on
them.  State `(result, stack, buildFuncs)` is threaded explicitly. -/
/-- The function dependencies pushed into `buildFuncs` for one entry:
`_.uniq(_.transform(identifiers, (deps, id) =>
push.apply(deps, getDependencies(id, funcDepMap))))`. -/
def expandDeps (fdm dm2 : DepMap) (f0 : String) : List String :=
  uniq (((depsOf dm2 f0).map (fun i => getDependenciesOf fdm i)).flatten)

def expandWalk (fdm dm2 : DepMap)
    (next : List String → List String → List String → List String →
      Option (List String × List String × List String))
    (top : Bool) :
    List String → List String → List String → List String →
    Option (List String × List String × List String)
  | [], result, stack, bf => some (result, stack, bf)
  | f0 :: rest, result, stack, bf =>
    if ¬ f0 ∈ stack ∧ (top = false ∨ f0 ∈ bf) then
      match next (expandDeps fdm dm2 f0) (result ++ depsOf dm2 f0)
          (stack ++ [f0]) (union bf (expandDeps fdm dm2 f0)) with
      | none => none
      | some (r1, s1, b1) => expandWalk fdm dm2 next top rest r1 s1 b1
    else expandWalk fdm dm2 next top rest result stack bf

/-- The recursion of `expand`, fuel-structural; every level returns its
`_.uniq`-ed accumulated result as in the source. -/
def expandGo (fdm dm2 : DepMap) : Nat → Bool → List String → List String →
    List String → List String →
    Option (List String × List String × List String)
  | 0, top, names, result, stack, bf =>
    match expandWalk fdm dm2 (fun _ _ _ _ => none) top names result stack bf
      with
    | none => none
    | some (r, s, b) => some (uniq r, s, b)
  | fuel + 1, top, names, result, stack, bf =>
    match expandWalk fdm dm2
        (fun deps r s b => expandGo fdm dm2 fuel false deps r s b) top names
        result stack bf with
    | none => none
    | some (r, s, b) => some (uniq r, s, b)

/-- Fuel for the expansion: only keys of `dm2` (top level) and function
names occurring in `fdm` dependency lists (recursive levels) are ever
pushed on the expansion stack. -/
def expandFuel (fdm dm2 : DepMap) : Nat :=
  (keysOf dm2 ++ flatValues fdm).length

/-- One `includeProps = expand(includeProps, propDepMap)` style call:
iterate the map entries at top level (current `buildFuncs` membership
gates each entry), returning the expanded identifier list and the
updated `buildFuncs`. -/
def expandAll (fdm dm2 : DepMap) (result0 bf : List String) :
    Option (List String × List String) :=
  match expandGo fdm dm2 (expandFuel fdm dm2) true (keysOf dm2) result0 [] bf
    with
  | none => none
  | some (r, _, b) => some (r, b)

/-- The full resolved build set of one invocation: `buildFuncs` from
lines 3044-3077, then the property expansion, then the variable
expansion (lines 3079-3106), each of which may push further function
dependencies into `buildFuncs`.  Returns
`(buildFuncs, includeProps, includeVars)`. -/
def resolvedBuildSet (fdm pdm vdm : DepMap) (allFuncsL : List String)
    (includeFuncs includeProps includeVars plusFuncs minusFuncs : List String)
    (isBackbone isUnderscore isModularize : Bool) :
    Option (List String × List String × List String) :=
  match expandAll fdm pdm includeProps
      (computeBuildFuncs fdm allFuncsL includeFuncs includeProps includeVars
        plusFuncs minusFuncs isBackbone isUnderscore isModularize) with
  | none => none
  | some (ip, bf1) =>
    match expandAll fdm vdm includeVars bf1 with
    | none => none
    | some (iv, bf2) => some (bf2, ip, iv)

/-!
### Default-build dependency rewrites (build.js lines 2661-2664 and
2835-2842)

For a build with no environment flags (not underscore, backbone,
legacy, mobile, modern, csp or modularize) the environment rule engine
still performs these rewrites before resolution: the `findWhere` entry
is deleted to enable its alias mapping, and the wrapper-chaining
dependencies are added. -/
def mapDelete (m : DepMap) (k : String) : DepMap :=
  m.filter (fun p => ¬ p.1 = k)

def mapPush (m : DepMap) (k : String) (extra : List String) : DepMap :=
  m.map (fun p => if p.1 = k then (p.1, p.2 ++ extra) else p)

def defaultFuncDepMap : DepMap :=
  mapPush
    (mapPush
      (mapPush
        (mapPush
          (mapPush
            (mapPush (mapDelete funcDependencyMap "findWhere") "chain"
              ["wrapperChain"])
            "wrapperValueOf"
            ["baseEach", "chain", "forOwn", "mixin", "wrapperChain",
              "wrapperToString"])
          "lodashWrapper" ["wrapperValueOf"])
        "tap" ["wrapperValueOf"])
      "wrapperChain" ["wrapperValueOf"])
    "wrapperToString" ["wrapperValueOf"]

/-- The `{"difference"}` scenario: `include=difference`, no environment
flags.  `includeProps`/`includeVars` start as the intersections of the
include list with the known property/variable names (lines 2685-2688),
which are empty here. -/
def differenceBuild : Option (List String × List String × List String) :=
  resolvedBuildSet defaultFuncDepMap propDependencyMap varDependencyMap []
    ["difference"] [] [] [] [] false false false

/-- Universe soundness for `getDependencies`: results come from the
requested names or from dependency lists of the map. -/
theorem getDependencies_universe (m : DepMap) (names : List String) :
    ∀ x ∈ getDependencies m names, x ∈ names ∨ x ∈ flatValues m := by
  obtain ⟨r, s', heq, hres⟩ := getDependencies_eq m names
  rw [hres]
  intro x hx
  rw [mem_uniq] at hx
  have hxs : x ∈ s' := visitList_res_sub m _ names [] r s' heq x hx
  rcases visitList_universe m _ names [] r s' heq x hxs with h1 | h1 | h1
  · exact absurd h1 (by simp)
  · exact Or.inl h1
  · exact Or.inr h1

/-- A name list closed under the dependency map: every direct
dependency of a member is itself a member (no dangling reference). -/
def ClosedL (m : DepMap) (l : List String) : Prop :=
  ∀ x ∈ l, ∀ e ∈ depsOf m x, e ∈ l

theorem closedL_getDependencies (m : DepMap) (names : List String) :
    ClosedL m (getDependencies m names) :=
  getDependencies_closed m names

theorem closedL_union {m : DepMap} {a b : List String}
    (ha : ClosedL m a) (hb : ClosedL m b) : ClosedL m (union a b) := by
  intro x hx e he
  rw [mem_union] at hx ⊢
  rcases hx with h | h
  · exact Or.inl (ha x h e he)
  · exact Or.inr (hb x h e he)

theorem closedL_expandDeps (fdm dm2 : DepMap) (f0 : String) :
    ClosedL fdm (expandDeps fdm dm2 f0) := by
  intro x hx e he
  rw [expandDeps, mem_uniq, List.mem_flatten] at hx ⊢
  obtain ⟨blk, hblk, hxblk⟩ := hx
  rw [List.mem_map] at hblk
  obtain ⟨i, hi, rfl⟩ := hblk
  refine ⟨getDependenciesOf fdm i, List.mem_map_of_mem _ hi, ?_⟩
  exact getDependencies_closed fdm (depsOf fdm i) x hxblk e he

theorem expandDeps_sub_flatValues (fdm dm2 : DepMap) (f0 : String) :
    ∀ x ∈ expandDeps fdm dm2 f0, x ∈ flatValues fdm := by
  intro x hx
  rw [expandDeps, mem_uniq, List.mem_flatten] at hx
  obtain ⟨blk, hblk, hxblk⟩ := hx
  rw [List.mem_map] at hblk
  obtain ⟨i, hi, rfl⟩ := hblk
  rcases getDependencies_universe fdm (depsOf fdm i) x hxblk with h | h
  · exact depsOf_sub_flatValues fdm i x h
  · exact h

theorem expandWalk_nil (fdm dm2 : DepMap)
    (next : List String → List String → List String → List String →
      Option (List String × List String × List String))
    (top : Bool) (result stack bf : List String) :
    expandWalk fdm dm2 next top [] result stack bf =
      some (result, stack, bf) := by
  rw [expandWalk]

theorem expandWalk_skip (fdm dm2 : DepMap)
    (next : List String → List String → List String → List String →
      Option (List String × List String × List String))
    (top : Bool) (f0 : String) (rest result stack bf : List String)
    (h : ¬ (¬ f0 ∈ stack ∧ (top = false ∨ f0 ∈ bf))) :
    expandWalk fdm dm2 next top (f0 :: rest) result stack bf =
      expandWalk fdm dm2 next top rest result stack bf := by
  conv_lhs => rw [expandWalk]
  rw [if_neg h]

theorem expandWalk_visit (fdm dm2 : DepMap)
    (next : List String → List String → List String → List String →
      Option (List String × List String × List String))
    (top : Bool) (f0 : String) (rest result stack bf : List String)
    (h : ¬ f0 ∈ stack ∧ (top = false ∨ f0 ∈ bf)) :
    expandWalk fdm dm2 next top (f0 :: rest) result stack bf =
      match next (expandDeps fdm dm2 f0) (result ++ depsOf dm2 f0)
          (stack ++ [f0]) (union bf (expandDeps fdm dm2 f0)) with
      | none => none
      | some (r1, s1, b1) => expandWalk fdm dm2 next top rest r1 s1 b1 := by
  conv_lhs => rw [expandWalk]
  rw [if_pos h]

theorem expandGo_zero (fdm dm2 : DepMap) (top : Bool)
    (names result stack bf : List String) :
    expandGo fdm dm2 0 top names result stack bf =
      match expandWalk fdm dm2 (fun _ _ _ _ => none) top names result stack bf
        with
      | none => none
      | some (r, s, b) => some (uniq r, s, b) := by
  rw [expandGo]

theorem expandGo_succ (fdm dm2 : DepMap) (fuel : Nat) (top : Bool)
    (names result stack bf : List String) :
    expandGo fdm dm2 (fuel + 1) top names result stack bf =
      match expandWalk fdm dm2
          (fun deps r s b => expandGo fdm dm2 fuel false deps r s b) top names
          result stack bf with
      | none => none
      | some (r, s, b) => some (uniq r, s, b) := by
  rw [expandGo]

/-- The expansion stack only grows (generic in the recursive descent). -/
theorem expandWalk_stack_sub (fdm dm2 : DepMap)
    (next : List String → List String → List String → List String →
      Option (List String × List String × List String))
    (top : Bool)
    (hnext : ∀ deps r s b r' s' b', next deps r s b = some (r', s', b') →
      ∀ x ∈ s, x ∈ s') :
    ∀ names result stack bf r s b,
    expandWalk fdm dm2 next top names result stack bf = some (r, s, b) →
    ∀ x ∈ stack, x ∈ s := by
  intro names
  induction names with
  | nil =>
    intro result stack bf r s b h
    rw [expandWalk_nil] at h
    simp only [Option.some.injEq, Prod.mk.injEq] at h
    obtain ⟨-, rfl, -⟩ := h
    exact fun x hx => hx
  | cons f0 rest ih =>
    intro result stack bf r s b h
    by_cases hc : ¬ f0 ∈ stack ∧ (top = false ∨ f0 ∈ bf)
    · rw [expandWalk_visit fdm dm2 next top f0 rest result stack bf hc] at h
      cases hn : next (expandDeps fdm dm2 f0) (result ++ depsOf dm2 f0)
          (stack ++ [f0]) (union bf (expandDeps fdm dm2 f0)) with
      | none =>
        rw [hn] at h
        exact absurd h (by simp)
      | some q =>
        obtain ⟨r1, s1, b1⟩ := q
        rw [hn] at h
        simp only at h
        intro x hx
        exact ih r1 s1 b1 r s b h x
          (hnext _ _ _ _ _ _ _ hn x (by simp [hx]))
    · rw [expandWalk_skip fdm dm2 next top f0 rest result stack bf hc] at h
      exact ih result stack bf r s b h

theorem expandGo_stack_sub (fdm dm2 : DepMap) :
    ∀ fuel top names result stack bf r s b,
    expandGo fdm dm2 fuel top names result stack bf = some (r, s, b) →
    ∀ x ∈ stack, x ∈ s := by
  intro fuel
  induction fuel with
  | zero =>
    intro top names result stack bf r s b h
    rw [expandGo_zero] at h
    cases hw : expandWalk fdm dm2 (fun _ _ _ _ => none) top names result stack
        bf with
    | none =>
      rw [hw] at h
      exact absurd h (by simp)
    | some q =>
      obtain ⟨r0, s0, b0⟩ := q
      rw [hw] at h
      simp only [Option.some.injEq, Prod.mk.injEq] at h
      obtain ⟨-, rfl, -⟩ := h
      exact expandWalk_stack_sub fdm dm2 _ top (by intro _ _ _ _ _ _ _ h; cases h)
        names result stack bf r0 s0 b0 hw
  | succ f ih =>
    intro top names result stack bf r s b h
    rw [expandGo_succ] at h
    cases hw : expandWalk fdm dm2
        (fun deps r s b => expandGo fdm dm2 f false deps r s b) top names
        result stack bf with
    | none =>
      rw [hw] at h
      exact absurd h (by simp)
    | some q =>
      obtain ⟨r0, s0, b0⟩ := q
      rw [hw] at h
      simp only [Option.some.injEq, Prod.mk.injEq] at h
      obtain ⟨-, rfl, -⟩ := h
      exact expandWalk_stack_sub fdm dm2 _ top
        (fun deps r1 s1 b1 r' s' b' hn => ih false deps r1 s1 b1 r' s' b' hn)
        names result stack bf r0 s0 b0 hw

/-- The expansion only ever unions transitively-closed dependency sets
into `buildFuncs` (generic in the recursive descent). -/
theorem expandWalk_bf_closed (fdm dm2 : DepMap)
    (next : List String → List String → List String → List String →
      Option (List String × List String × List String))
    (top : Bool)
    (hnext : ∀ deps r s b r' s' b', next deps r s b = some (r', s', b') →
      ClosedL fdm b → ClosedL fdm b') :
    ∀ names result stack bf r s b,
    expandWalk fdm dm2 next top names result stack bf = some (r, s, b) →
    ClosedL fdm bf → ClosedL fdm b := by
  intro names
  induction names with
  | nil =>
    intro result stack bf r s b h hbf
    rw [expandWalk_nil] at h
    simp only [Option.some.injEq, Prod.mk.injEq] at h
    obtain ⟨-, -, rfl⟩ := h
    exact hbf
  | cons f0 rest ih =>
    intro result stack bf r s b h hbf
    by_cases hc : ¬ f0 ∈ stack ∧ (top = false ∨ f0 ∈ bf)
    · rw [expandWalk_visit fdm dm2 next top f0 rest result stack bf hc] at h
      cases hn : next (expandDeps fdm dm2 f0) (result ++ depsOf dm2 f0)
          (stack ++ [f0]) (union bf (expandDeps fdm dm2 f0)) with
      | none =>
        rw [hn] at h
        exact absurd h (by simp)
      | some q =>
        obtain ⟨r1, s1, b1⟩ := q
        rw [hn] at h
        simp only at h
        exact ih r1 s1 b1 r s b h
          (hnext _ _ _ _ _ _ _ hn
            (closedL_union hbf (closedL_expandDeps fdm dm2 f0)))
    · rw [expandWalk_skip fdm dm2 next top f0 rest result stack bf hc] at h
      exact ih result stack bf r s b h hbf

theorem expandGo_bf_closed (fdm dm2 : DepMap) :
    ∀ fuel top names result stack bf r s b,
    expandGo fdm dm2 fuel top names result stack bf = some (r, s, b) →
    ClosedL fdm bf → ClosedL fdm b := by
  intro fuel
  induction fuel with
  | zero =>
    intro top names result stack bf r s b h hbf
    rw [expandGo_zero] at h
    cases hw : expandWalk fdm dm2 (fun _ _ _ _ => none) top names result stack
        bf with
    | none =>
      rw [hw] at h
      exact absurd h (by simp)
    | some q =>
      obtain ⟨r0, s0, b0⟩ := q
      rw [hw] at h
      simp only [Option.some.injEq, Prod.mk.injEq] at h
      obtain ⟨-, -, rfl⟩ := h
      exact expandWalk_bf_closed fdm dm2 _ top
        (by intro _ _ _ _ _ _ _ h; cases h) names result stack bf r0 s0 b0 hw
        hbf
  | succ f ih =>
    intro top names result stack bf r s b h hbf
    rw [expandGo_succ] at h
    cases hw : expandWalk fdm dm2
        (fun deps r s b => expandGo fdm dm2 f false deps r s b) top names
        result stack bf with
    | none =>
      rw [hw] at h
      exact absurd h (by simp)
    | some q =>
      obtain ⟨r0, s0, b0⟩ := q
      rw [hw] at h
      simp only [Option.some.injEq, Prod.mk.injEq] at h
      obtain ⟨-, -, rfl⟩ := h
      exact expandWalk_bf_closed fdm dm2 _ top
        (fun deps r1 s1 b1 r' s' b' hn => ih false deps r1 s1 b1 r' s' b' hn)
        names result stack bf r0 s0 b0 hw hbf

/-- Fuel sufficiency for the expansion: only map keys (top level) and
names from `fdm` dependency lists (recursive levels) are pushed, so
fuel covering the unvisited part of that universe always suffices. -/
theorem expandGo_isSome (fdm dm2 : DepMap) (u : List String)
    (hvals : ∀ x ∈ flatValues fdm, x ∈ u) :
    ∀ fuel top names result stack bf, (∀ d ∈ names, d ∈ u) →
    remCount u stack ≤ fuel →
    (expandGo fdm dm2 fuel top names result stack bf).isSome = true := by
  intro fuel
  induction fuel with
  | zero =>
    intro top names
    induction names with
    | nil =>
      intro result stack bf _ _
      rw [expandGo_zero, expandWalk_nil]
      rfl
    | cons f0 rest ihn =>
      intro result stack bf hnames hfuel
      by_cases hc : ¬ f0 ∈ stack ∧ (top = false ∨ f0 ∈ bf)
      · exfalso
        have hf0u : f0 ∈ u := hnames f0 (by simp)
        have hpush := remCount_push u stack f0 hf0u hc.1
        omega
      · rw [expandGo_zero, expandWalk_skip fdm dm2 _ top f0 rest result stack
          bf hc, ← expandGo_zero]
        exact ihn result stack bf
          (fun d hd => hnames d (List.mem_cons_of_mem f0 hd)) hfuel
  | succ f ih =>
    intro top names
    induction names with
    | nil =>
      intro result stack bf _ _
      rw [expandGo_succ, expandWalk_nil]
      rfl
    | cons f0 rest ihn =>
      intro result stack bf hnames hfuel
      by_cases hc : ¬ f0 ∈ stack ∧ (top = false ∨ f0 ∈ bf)
      · have hf0u : f0 ∈ u := hnames f0 (by simp)
        have hpush := remCount_push u stack f0 hf0u hc.1
        have hdesc := ih false (expandDeps fdm dm2 f0)
          (result ++ depsOf dm2 f0) (stack ++ [f0])
          (union bf (expandDeps fdm dm2 f0))
          (fun d hd => hvals d (expandDeps_sub_flatValues fdm dm2 f0 d hd))
          (by omega)
        cases hn : expandGo fdm dm2 f false (expandDeps fdm dm2 f0)
            (result ++ depsOf dm2 f0) (stack ++ [f0])
            (union bf (expandDeps fdm dm2 f0)) with
        | none =>
          rw [hn] at hdesc
          exact absurd hdesc (by simp)
        | some q =>
          obtain ⟨r1, s1, b1⟩ := q
          have hs1 : ∀ x ∈ stack ++ [f0], x ∈ s1 :=
            expandGo_stack_sub fdm dm2 f false _ _ _ _ r1 s1 b1 hn
          have hmono : remCount u s1 ≤ remCount u (stack ++ [f0]) :=
            remCount_mono u (stack ++ [f0]) s1 hs1
          have hrest := ihn r1 s1 b1
            (fun d hd => hnames d (List.mem_cons_of_mem f0 hd)) (by omega)
          rw [expandGo_succ] at hrest ⊢
          rw [expandWalk_visit fdm dm2 _ top f0 rest result stack bf hc]
          simp only [hn]
          cases hw : expandWalk fdm dm2
              (fun deps r s b => expandGo fdm dm2 f false deps r s b) top rest
              r1 s1 b1 with
          | none =>
            rw [hw] at hrest
            exact absurd hrest (by simp)
          | some q2 =>
            obtain ⟨r2, s2, b2⟩ := q2
            rfl
      · rw [expandGo_succ, expandWalk_skip fdm dm2 _ top f0 rest result stack
          bf hc, ← expandGo_succ]
        exact ihn result stack bf
          (fun d hd => hnames d (List.mem_cons_of_mem f0 hd)) hfuel

theorem closeResult_closed (m : DepMap) (r : Option (List String)) :
    ClosedL m (closeResult m r) := by
  cases r with
  | none =>
    intro x hx
    rw [closeResult] at hx
    exact absurd hx (by simp)
  | some l =>
    intro x hx
    rw [closeResult] at hx ⊢
    exact closedL_getDependencies m l x hx

theorem computeBuildFuncs_closed (m : DepMap) (allFuncsL includeFuncs
    includeProps includeVars plusFuncs minusFuncs : List String)
    (isBackbone isUnderscore isModularize : Bool) :
    ClosedL m (computeBuildFuncs m allFuncsL includeFuncs includeProps
      includeVars plusFuncs minusFuncs isBackbone isUnderscore isModularize) :=
  closeResult_closed m _

theorem expandAll_some_closed (fdm dm2 : DepMap) (result0 bf : List String)
    (hbf : ClosedL fdm bf) :
    ∃ r b, expandAll fdm dm2 result0 bf = some (r, b) ∧ ClosedL fdm b := by
  have hsome := expandGo_isSome fdm dm2 (keysOf dm2 ++ flatValues fdm)
    (fun x hx => List.mem_append_right (keysOf dm2) hx)
    (expandFuel fdm dm2) true (keysOf dm2) result0 [] bf
    (fun d hd => List.mem_append_left (flatValues fdm) hd)
    (remCount_le_length (keysOf dm2 ++ flatValues fdm) [])
  cases hgo : expandGo fdm dm2 (expandFuel fdm dm2) true (keysOf dm2) result0
      [] bf with
  | none =>
    rw [hgo] at hsome
    exact absurd hsome (by simp)
  | some q =>
    obtain ⟨r, s, b⟩ := q
    refine ⟨r, b, ?_, ?_⟩
    · unfold expandAll
      rw [hgo]
    · exact expandGo_bf_closed fdm dm2 (expandFuel fdm dm2) true (keysOf dm2)
        result0 [] bf r s b hgo hbf

/-- **C1** Closure completeness: for every requested identifier set and
every dependency map produced by the environment rewrites, the resolved
build set — `buildFuncs` computed by `getDependencies` over the
requested names and then extended by the property/variable expansion —
is transitively closed: every direct dependency (per the map used for
the build) of a member of the build set is itself a member. -/
theorem buildSet_closure_complete (fdm pdm vdm : DepMap)
    (allFuncsL includeFuncs includeProps includeVars plusFuncs
      minusFuncs : List String) (isBackbone isUnderscore isModularize : Bool) :
    ∃ bf ip iv,
      resolvedBuildSet fdm pdm vdm allFuncsL includeFuncs includeProps
        includeVars plusFuncs minusFuncs isBackbone isUnderscore
        isModularize = some (bf, ip, iv) ∧
      ClosedL fdm bf := by
  obtain ⟨ip, bf1, h1, hc1⟩ := expandAll_some_closed fdm pdm includeProps
    (computeBuildFuncs fdm allFuncsL includeFuncs includeProps includeVars
      plusFuncs minusFuncs isBackbone isUnderscore isModularize)
    (computeBuildFuncs_closed fdm allFuncsL includeFuncs includeProps
      includeVars plusFuncs minusFuncs isBackbone isUnderscore isModularize)
  obtain ⟨iv, bf2, h2, hc2⟩ := expandAll_some_closed fdm vdm includeVars bf1 hc1
  refine ⟨bf2, ip, iv, ?_, hc2⟩
  unfold resolvedBuildSet
  rw [h1]
  simp only [h2]

/-- When `minus` names exist, the subtraction always produces a defined
list, and that list contains neither a `minus`-ed name nor any name
that transitively depends on one. -/
theorem applyMinus_some (m : DepMap) (r : Option (List String))
    (minusFuncs : List String) (hne : ¬ minusFuncs = []) :
    ∃ l, applyMinus m r minusFuncs = some l ∧
      ∀ z ∈ l, ∀ x ∈ minusFuncs, ¬ z = x ∧ ¬ Reaches m z x := by
  unfold applyMinus
  rw [if_neg hne]
  cases r with
  | none =>
    refine ⟨[], rfl, ?_⟩
    intro z hz
    exact absurd hz (by simp)
  | some l1 =>
    refine ⟨_, rfl, ?_⟩
    intro z hz x hx
    rw [mem_difference] at hz
    constructor
    · rintro rfl
      exact hz.2 (List.mem_append_left _ hx)
    · intro hr
      exact hz.2 (List.mem_append_right _
        (getDependants_complete m minusFuncs z x hr hx))

/-- The modularize filter preserves definedness and only shrinks the
list. -/
theorem applyModularize_sub (r : List String) (b : Bool) :
    ∃ l, applyModularize (some r) b = some l ∧ ∀ z ∈ l, z ∈ r := by
  unfold applyModularize
  by_cases hb : b = true
  · rw [if_pos hb]
    refine ⟨_, rfl, ?_⟩
    intro z hz
    exact (List.mem_filter.mp hz).1
  · rw [if_neg hb]
    exact ⟨r, rfl, fun z hz => hz⟩

/-- **C2** Exclusion cascade: in every build invocation, every name `x`
of the `minus` directive is excluded from the resolved `buildFuncs`,
and so is every name that (transitively) depends on `x` — the
subtraction removes `getDependantsOf` of every minus-ed name before
the closure is taken, and the closure cannot re-introduce them. -/
theorem buildFuncs_minus_excluded (m : DepMap)
    (allFuncsL includeFuncs includeProps includeVars plusFuncs
      minusFuncs : List String) (isBackbone isUnderscore isModularize : Bool) :
    ∀ x ∈ minusFuncs,
    ∀ n ∈ computeBuildFuncs m allFuncsL includeFuncs includeProps includeVars
        plusFuncs minusFuncs isBackbone isUnderscore isModularize,
      ¬ n = x ∧ ¬ Reaches m n x := by
  intro x hx n hn
  have hne : ¬ minusFuncs = [] := by
    rintro rfl
    exact absurd hx (by simp)
  obtain ⟨l0, heq0, hprop⟩ := applyMinus_some m
    (applyPlus
      (applyNone
        (pickResult includeFuncs includeProps includeVars isBackbone
          isUnderscore allFuncsL))
      plusFuncs) minusFuncs hne
  obtain ⟨l1, heq1, hsub⟩ := applyModularize_sub l0 isModularize
  rw [computeBuildFuncs, heq0, heq1, closeResult] at hn
  have hgen : ∀ k ∈ getDependencies m l1, ¬ k = x ∧ ¬ Reaches m k x := by
    intro k hk
    rcases getDependencies_sound m l1 k hk with h1 | ⟨z, hz, h2⟩
    · exact hprop k (hsub k h1) x hx
    · have hzx := hprop z (hsub z hz) x hx
      constructor
      · rintro rfl
        exact hzx.2 h2
      · intro hnr
        exact hzx.2 (reaches_trans h2 hnr)
  exact hgen n hn

set_option maxRecDepth 40000 in
theorem buildFuncs_minus_excluded_witness :
    "b" ∈ (["b"] : List String) ∧
    "d" ∈ computeBuildFuncs [("a", ["b"]), ("b", ["c"]), ("c", []), ("d", [])]
        [] ["a", "d"] [] [] [] ["b"] false false false ∧
    (¬ "d" = "b" ∧
      ¬ Reaches [("a", ["b"]), ("b", ["c"]), ("c", []), ("d", [])] "d" "b") :=
  ⟨by decide, by decide,
    buildFuncs_minus_excluded [("a", ["b"]), ("b", ["c"]), ("c", []),
        ("d", [])] [] ["a", "d"] [] [] [] ["b"] false false false "b"
      (by decide) "d" (by decide)⟩

theorem pickResult_some_include (inc : List String) (allFuncsL : List String)
    (hne : ¬ inc = []) :
    pickResult inc [] [] false false allFuncsL = some inc := by
  simp [pickResult, hne]

set_option maxRecDepth 40000 in
/-- **C4, counterexample**: the claim says an explicit `"none"` in the
requested set clears the entire result before `plus`/`minus` are
applied.  But `result == 'none'` is a JS array-to-string comparison:
with `include=none,compact` the requested list `["none","compact"]`
is not cleared — only the sentinel entry is pulled, and the resolved
build set still contains `compact` (it would be empty had the result
been cleared). -/
theorem none_sentinel_counterexample :
    "none" ∈ (["none", "compact"] : List String) ∧
    applyNone (some ["none", "compact"]) = some ["compact"] ∧
    computeBuildFuncs funcDependencyMap [] ["none", "compact"] [] [] [] []
      false false false = ["compact"] :=
  ⟨by decide, by decide, by decide⟩

/-- **C4, amended**: the resolver clears the result only when the
requested list is exactly the single sentinel `["none"]` (the plus set
is then unioned into and the minus set subtracted from that emptied
list); when the requested list merely contains `"none"` among other
names, only the sentinel entries are removed and the remaining names
are kept. -/
theorem none_sentinel_amended (m : DepMap)
    (allFuncsL plusFuncs minusFuncs : List String) (isModularize : Bool) :
    (computeBuildFuncs m allFuncsL ["none"] [] [] plusFuncs minusFuncs false
        false isModularize =
      closeResult m
        (applyModularize (applyMinus m (applyPlus (some []) plusFuncs)
          minusFuncs) isModularize)) ∧
    ∀ includeFuncs, "none" ∈ includeFuncs → ¬ includeFuncs = ["none"] →
      ¬ includeFuncs.filter (fun x => ¬ x = "none") = [] →
      computeBuildFuncs m allFuncsL includeFuncs [] [] plusFuncs minusFuncs
        false false isModularize =
      computeBuildFuncs m allFuncsL
        (includeFuncs.filter (fun x => ¬ x = "none")) [] [] plusFuncs
        minusFuncs false false isModularize := by
  constructor
  · rfl
  · intro includeFuncs hmem hne hfne
    have hne0 : ¬ includeFuncs = [] := by
      rintro rfl
      exact absurd hmem (by simp)
    have hpick1 : pickResult includeFuncs [] [] false false allFuncsL =
        some includeFuncs := pickResult_some_include includeFuncs allFuncsL hne0
    have hpick2 : pickResult (includeFuncs.filter (fun x => ¬ x = "none")) []
        [] false false allFuncsL =
        some (includeFuncs.filter (fun x => ¬ x = "none")) :=
      pickResult_some_include _ allFuncsL hfne
    have hfilter_ne : ¬ includeFuncs.filter (fun x => ¬ x = "none") =
        ["none"] := by
      intro he
      have hmem2 : "none" ∈ includeFuncs.filter (fun x => ¬ x = "none") := by
        rw [he]
        simp
      rw [List.mem_filter] at hmem2
      simp at hmem2
    have happ1 : applyNone (some includeFuncs) =
        some (includeFuncs.filter (fun x => ¬ x = "none")) := by
      show some (if includeFuncs = ["none"] then []
        else includeFuncs.filter (fun x => ¬ x = "none")) = _
      rw [if_neg hne]
    have happ2 : applyNone (some (includeFuncs.filter (fun x => ¬ x = "none")))
        = some (includeFuncs.filter (fun x => ¬ x = "none")) := by
      show some (if includeFuncs.filter (fun x => ¬ x = "none") = ["none"]
        then [] else (includeFuncs.filter (fun x => ¬ x = "none")).filter
          (fun x => ¬ x = "none")) = _
      rw [if_neg hfilter_ne]
      congr 1
      apply List.filter_eq_self.mpr
      intro a ha
      exact (List.mem_filter.mp ha).2
    unfold computeBuildFuncs
    rw [hpick1, happ1, hpick2, happ2]

set_option maxRecDepth 40000 in
theorem none_sentinel_amended_witness :
    (computeBuildFuncs funcDependencyMap [] ["none"] [] [] ["compact"] []
        false false false =
      closeResult funcDependencyMap
        (applyModularize (applyMinus funcDependencyMap
          (applyPlus (some []) ["compact"]) []) false)) ∧
    computeBuildFuncs funcDependencyMap [] ["none", "compact"] [] []
        ["compact"] [] false false false =
      computeBuildFuncs funcDependencyMap []
        (["none", "compact"].filter (fun x => ¬ x = "none")) [] [] ["compact"]
        [] false false false :=
  ⟨(none_sentinel_amended funcDependencyMap [] ["compact"] [] false).1,
   (none_sentinel_amended funcDependencyMap [] ["compact"] [] false).2
     ["none", "compact"] (by decide) (by decide) (by decide)⟩

/-- The kept identifiers of the `{"difference"}` build: the resolved
`buildFuncs` together with the expanded `includeVars`. -/
def differenceKeptSet : List String :=
  match differenceBuild with
  | some (bf, _, iv) => bf ++ iv
  | none => []

set_option maxRecDepth 100000 in
/-- **C3** Difference scenario: for the build requesting exactly
`{"difference"}` with no environment flags, the resolved build set
(kept functions together with the included variables) contains
`difference`, `baseFlatten`, `cacheIndexOf`, `createCache`,
`getIndexOf`, `releaseObject`, `baseIndexOf`, `indexOf`, `sortedIndex`,
`largeArraySize` and `keyPrefix`, and does not contain `template`. -/
theorem difference_build_scenario :
    "difference" ∈ differenceKeptSet ∧
    "baseFlatten" ∈ differenceKeptSet ∧
    "cacheIndexOf" ∈ differenceKeptSet ∧
    "createCache" ∈ differenceKeptSet ∧
    "getIndexOf" ∈ differenceKeptSet ∧
    "releaseObject" ∈ differenceKeptSet ∧
    "baseIndexOf" ∈ differenceKeptSet ∧
    "indexOf" ∈ differenceKeptSet ∧
    "sortedIndex" ∈ differenceKeptSet ∧
    "largeArraySize" ∈ differenceKeptSet ∧
    "keyPrefix" ∈ differenceKeptSet ∧
    ¬ "template" ∈ differenceKeptSet := by
  decide

/-- **C5** Cycle-tolerant termination: for every dependency map —
including maps whose edges form cycles — the non-shallow
`getDependencies(name, depMap)` walk completes without error: the
fuelled walk returns a value (never `none`) at the fuel the wrapper
supplies, because a node already on the per-call visited stack is
skipped rather than re-expanded. -/
theorem getDependencies_cycle_tolerant (m : DepMap) (name : String) :
    ∃ p, visitList m (depUniverse m (depsOf m name)).length (depsOf m name) []
      = some p ∧ getDependenciesOf m name = uniq p.1 := by
  obtain ⟨r, s', heq, hres⟩ := getDependencies_eq m (depsOf m name)
  exact ⟨(r, s'), heq, hres⟩

/-- No target of the alias table is itself an alias key. -/
theorem alias_targets_not_aliases :
    aliasToRealMap.all (fun p => (aliasLookup p.2).isNone) = true := by
  decide

/-- **C6** Idempotence of alias resolution: for every name and every
dependency map, `getRealName(getRealName(n, depMap), depMap)` equals
`getRealName(n, depMap)`; in particular a name tracked by the map
resolves to itself. -/
theorem getRealName_idempotent (m : DepMap) (n : String) :
    getRealName m (getRealName m n) = getRealName m n ∧
    (hasKey m n = true → getRealName m n = n) := by
  constructor
  · by_cases h1 : hasKey m n = false
    · cases hal : aliasLookup n with
      | none =>
        have hgr : getRealName m n = n := by
          unfold getRealName
          rw [if_pos h1, hal]
        rw [hgr]
        exact hgr
      | some v =>
        have hgr : getRealName m n = v := by
          unfold getRealName
          rw [if_pos h1, hal]
        rw [hgr]
        have hvnone : aliasLookup v = none := by
          rw [aliasLookup] at hal
          cases hf : aliasToRealMap.find? (fun p => p.1 == n) with
          | none =>
            rw [hf] at hal
            exact absurd hal (by simp)
          | some p =>
            rw [hf] at hal
            simp only [Option.map_some'] at hal
            have hp : p ∈ aliasToRealMap := List.mem_of_find?_eq_some hf
            have hall := List.all_eq_true.mp alias_targets_not_aliases p hp
            have hpv : p.2 = v := by
              injection hal
            rw [hpv] at hall
            exact Option.isNone_iff_eq_none.mp hall
        unfold getRealName
        by_cases h2 : hasKey m v = false
        · rw [if_pos h2, hvnone]
        · rw [if_neg h2]
    · have hgr : getRealName m n = n := by
        unfold getRealName
        rw [if_neg h1]
      rw [hgr]
      exact hgr
  · intro h
    unfold getRealName
    rw [if_neg (by simp [h])]

theorem getRealName_idempotent_witness :
    getRealName funcDependencyMap (getRealName funcDependencyMap "each") =
      getRealName funcDependencyMap "each" ∧
    hasKey funcDependencyMap "difference" = true ∧
    getRealName funcDependencyMap "difference" = "difference" :=
  ⟨(getRealName_idempotent funcDependencyMap "each").1, by decide,
    (getRealName_idempotent funcDependencyMap "difference").2 (by decide)⟩

/-- **C7, counterexample**: `findWhere` is a known alias whose target
`find` is tracked in `funcDependencyMap`, so the claim demands
resolution to `"find"`; the code instead checks whether the queried
name itself is tracked — `findWhere` is a key of the base map, so it
comes back unchanged. -/
theorem getRealName_alias_counterexample :
    aliasLookup "findWhere" = some "find" ∧
    hasKey funcDependencyMap "find" = true ∧
    getRealName funcDependencyMap "findWhere" = "findWhere" ∧
    ¬ getRealName funcDependencyMap "findWhere" = "find" := by
  decide

/-- **C7, amended**: `getRealName(n, depMap)` returns `n` unchanged
when `n` is not a known alias, or when `n` itself is a tracked key of
the dependency map (the condition that lets build rewrites promote an
alias to a real implementation); otherwise it returns the alias's real
name. -/
theorem getRealName_unchanged_conditions (m : DepMap) (n : String) :
    (aliasLookup n = none → getRealName m n = n) ∧
    (hasKey m n = true → getRealName m n = n) ∧
    (hasKey m n = false → ∀ v, aliasLookup n = some v →
      getRealName m n = v) := by
  refine ⟨?_, ?_, ?_⟩
  · intro h
    unfold getRealName
    by_cases h1 : hasKey m n = false
    · rw [if_pos h1, h]
    · rw [if_neg h1]
  · intro h
    unfold getRealName
    rw [if_neg (by simp [h])]
  · intro h v hv
    unfold getRealName
    rw [if_pos h, hv]

theorem getRealName_unchanged_conditions_witness :
    getRealName funcDependencyMap "difference" = "difference" ∧
    getRealName (mapDelete funcDependencyMap "findWhere") "findWhere" =
      "find" ∧
    getRealName funcDependencyMap "zzz" = "zzz" :=
  ⟨(getRealName_unchanged_conditions funcDependencyMap "difference").2.1
      (by decide),
    (getRealName_unchanged_conditions (mapDelete funcDependencyMap "findWhere")
        "findWhere").2.2 (by decide) "find" (by decide),
    (getRealName_unchanged_conditions funcDependencyMap "zzz").1 (by decide)⟩

/-!
### The unused-variable removal loop (build.js lines 4349-4373)

`isVarUsed`/`removeVar` do regex surgery on the stripped source text;
the loop is modelled for an arbitrary use test `used` and removal
function `remove` over an abstract source type `σ`, which covers the
source's regex-based instances.  `_.sortBy` with the boolean criterion
is a stable sort putting the unused candidates first and the used ones
after, each group in original order; the inner `while` then removes
exactly the unused ones (per the `useMap` computed before the
removals) and the outer loop re-tests the remainder. -/
def useTest {σ : Type} (used : σ → String → Bool) (includeVars : List String)
    (s : σ) (v : String) : Bool :=
  includeVars.elem v || used s v

def elimLoopF {σ : Type} (used : σ → String → Bool)
    (remove : σ → String → σ) (includeVars : List String) :
    Nat → σ → List String → List String → σ × List String
  | 0, s, _, survivors => (s, survivors)
  | fuel + 1, s, varNames, survivors =>
    match varNames with
    | [] => (s, survivors)
    | v0 :: rest =>
      if ((v0 :: rest).filter
          (fun v => !(useTest used includeVars s v))).isEmpty then
        match (v0 :: rest).filter (fun v => useTest used includeVars s v) with
        | [] => (s, survivors)
        | u0 :: urest =>
          elimLoopF used remove includeVars fuel s urest (survivors ++ [u0])
      else
        elimLoopF used remove includeVars fuel
          (((v0 :: rest).filter
            (fun v => !(useTest used includeVars s v))).foldl remove s)
          ((v0 :: rest).filter (fun v => useTest used includeVars s v))
          survivors

/-- The `while (varNames.length)` loop: each outer iteration removes at
least one candidate, so the list length is enough fuel.  Returns the
final snippet and the surviving variable names. -/
def elimLoop {σ : Type} (used : σ → String → Bool)
    (remove : σ → String → σ) (includeVars : List String) (s : σ)
    (varNames : List String) : σ × List String :=
  elimLoopF used remove includeVars varNames.length s varNames []

theorem length_filter_not_add {α : Type} (l : List α) (p : α → Bool) :
    (l.filter (fun x => !(p x))).length + (l.filter p).length = l.length := by
  induction l with
  | nil => rfl
  | cons x xs ih =>
    by_cases hp : p x = true
    · rw [List.filter_cons_of_pos hp, List.filter_cons_of_neg (by simp [hp])]
      simp only [List.length_cons]
      omega
    · rw [List.filter_cons_of_neg hp, List.filter_cons_of_pos (by simp [hp])]
      simp only [List.length_cons]
      omega

theorem elimLoopF_zero {σ : Type} (used : σ → String → Bool)
    (remove : σ → String → σ) (includeVars : List String) (s : σ)
    (varNames survivors : List String) :
    elimLoopF used remove includeVars 0 s varNames survivors =
      (s, survivors) := by
  rw [elimLoopF]

theorem elimLoopF_nil {σ : Type} (used : σ → String → Bool)
    (remove : σ → String → σ) (includeVars : List String) (f : Nat) (s : σ)
    (survivors : List String) :
    elimLoopF used remove includeVars (f + 1) s [] survivors =
      (s, survivors) := by
  rw [elimLoopF]

theorem elimLoopF_shift {σ : Type} (used : σ → String → Bool)
    (remove : σ → String → σ) (includeVars : List String) (f : Nat) (s : σ)
    (v0 : String) (rest survivors : List String) (u0 : String)
    (urest : List String)
    (h : (v0 :: rest).filter (fun v => !(useTest used includeVars s v)) = [])
    (h2 : (v0 :: rest).filter (fun v => useTest used includeVars s v) =
      u0 :: urest) :
    elimLoopF used remove includeVars (f + 1) s (v0 :: rest) survivors =
      elimLoopF used remove includeVars f s urest (survivors ++ [u0]) := by
  conv_lhs => rw [elimLoopF]
  rw [if_pos (by rw [h]; rfl)]
  simp only [h2]

theorem elimLoopF_remove {σ : Type} (used : σ → String → Bool)
    (remove : σ → String → σ) (includeVars : List String) (f : Nat) (s : σ)
    (v0 : String) (rest survivors : List String)
    (h : ¬ ((v0 :: rest).filter
      (fun v => !(useTest used includeVars s v))).isEmpty = true) :
    elimLoopF used remove includeVars (f + 1) s (v0 :: rest) survivors =
      elimLoopF used remove includeVars f
        (((v0 :: rest).filter
          (fun v => !(useTest used includeVars s v))).foldl remove s)
        ((v0 :: rest).filter (fun v => useTest used includeVars s v))
        survivors := by
  conv_lhs => rw [elimLoopF]
  rw [if_neg h]

/-- Once every remaining candidate tests as used, the loop only shifts:
the snippet never changes again and every candidate survives. -/
theorem elimLoopF_all_used {σ : Type} (used : σ → String → Bool)
    (remove : σ → String → σ) (includeVars : List String) :
    ∀ fuel (s : σ) (varNames survivors : List String),
    varNames.length ≤ fuel →
    (∀ v ∈ varNames, useTest used includeVars s v = true) →
    elimLoopF used remove includeVars fuel s varNames survivors =
      (s, survivors ++ varNames) := by
  intro fuel
  induction fuel with
  | zero =>
    intro s varNames survivors hlen hall
    have hnil : varNames = [] := List.eq_nil_of_length_eq_zero
      (Nat.le_zero.mp hlen)
    subst hnil
    rw [elimLoopF_zero]
    simp
  | succ f ih =>
    intro s varNames survivors hlen hall
    cases varNames with
    | nil =>
      rw [elimLoopF_nil]
      simp
    | cons v0 rest =>
      have hempty : (v0 :: rest).filter
          (fun v => !(useTest used includeVars s v)) = [] := by
        rw [List.filter_eq_nil_iff]
        intro a ha
        simp [hall a ha]
      have hfull : (v0 :: rest).filter
          (fun v => useTest used includeVars s v) = v0 :: rest :=
        List.filter_eq_self.mpr hall
      rw [elimLoopF_shift used remove includeVars f s v0 rest survivors v0 rest
        hempty hfull]
      rw [ih s rest (survivors ++ [v0])
        (by simpa using Nat.le_of_succ_le_succ (by simpa using hlen))
        (fun v hv => hall v (List.mem_cons_of_mem v0 hv))]
      simp

/-- After the loop, every survivor was shifted in a pass whose snippet
is the final snippet, so it tests as used (or included) there. -/
theorem elimLoopF_survivors_used {σ : Type} (used : σ → String → Bool)
    (remove : σ → String → σ) (includeVars : List String) :
    ∀ fuel (s : σ) (varNames survivors : List String),
    varNames.length ≤ fuel →
    ∀ v ∈ (elimLoopF used remove includeVars fuel s varNames survivors).2,
      v ∈ survivors ∨
      useTest used includeVars
        (elimLoopF used remove includeVars fuel s varNames survivors).1 v =
        true := by
  intro fuel
  induction fuel with
  | zero =>
    intro s varNames survivors hlen v hv
    rw [elimLoopF_zero] at hv ⊢
    exact Or.inl hv
  | succ f ih =>
    intro s varNames survivors hlen v hv
    cases varNames with
    | nil =>
      rw [elimLoopF_nil] at hv ⊢
      exact Or.inl hv
    | cons v0 rest =>
      by_cases hempty : (v0 :: rest).filter
          (fun w => !(useTest used includeVars s w)) = []
      · have hall : ∀ w ∈ v0 :: rest, useTest used includeVars s w = true := by
          intro w hw
          by_contra hnw
          have hmem : w ∈ (v0 :: rest).filter
              (fun w => !(useTest used includeVars s w)) :=
            List.mem_filter.mpr ⟨hw, by simp [hnw]⟩
          rw [hempty] at hmem
          exact absurd hmem (by simp)
        rw [elimLoopF_all_used used remove includeVars (f + 1) s (v0 :: rest)
          survivors hlen hall] at hv ⊢
        rcases List.mem_append.mp hv with h | h
        · exact Or.inl h
        · exact Or.inr (hall v h)
      · have hne : ¬ ((v0 :: rest).filter
            (fun w => !(useTest used includeVars s w))).isEmpty = true := by
          intro hC
          exact hempty (by simpa using hC)
        rw [elimLoopF_remove used remove includeVars f s v0 rest survivors
          hne] at hv ⊢
        have hsum : ((v0 :: rest).filter
            (fun w => !(useTest used includeVars s w))).length +
            ((v0 :: rest).filter
              (fun w => useTest used includeVars s w)).length =
            (v0 :: rest).length :=
          length_filter_not_add (v0 :: rest)
            (fun w => useTest used includeVars s w)
        have hpos : ¬ ((v0 :: rest).filter
            (fun w => !(useTest used includeVars s w))).length = 0 := by
          intro h0
          exact hempty (List.length_eq_zero.mp h0)
        have hlen2 : ((v0 :: rest).filter
            (fun w => useTest used includeVars s w)).length ≤ f := by
          have hd : (v0 :: rest).length = rest.length + 1 := by simp
          simp only [List.length_cons] at hlen
          omega
        exact ih _ _ survivors hlen2 v hv

/-- **C8** Dead-variable elimination reaches a true fixed point: when
the removal loop terminates, every remaining top-level variable is in
`includeVars` or still tests as used against the final snippet, so a
second run of the elimination on its own output removes nothing (it
returns the same snippet and the same survivors). -/
theorem deadvar_elimination_fixed_point (σ : Type) (used : σ → String → Bool)
    (remove : σ → String → σ) (includeVars : List String) (s : σ)
    (varNames : List String) :
    (∀ v ∈ (elimLoop used remove includeVars s varNames).2,
      v ∈ includeVars ∨
      used (elimLoop used remove includeVars s varNames).1 v = true) ∧
    elimLoop used remove includeVars
        (elimLoop used remove includeVars s varNames).1
        (elimLoop used remove includeVars s varNames).2 =
      ((elimLoop used remove includeVars s varNames).1,
        (elimLoop used remove includeVars s varNames).2) := by
  have hmain := elimLoopF_survivors_used used remove includeVars
    varNames.length s varNames [] (le_refl _)
  constructor
  · intro v hv
    rcases hmain v hv with h | h
    · exact absurd h (by simp)
    · rw [useTest] at h
      rcases Bool.or_eq_true_iff.mp h with h1 | h1
      · exact Or.inl (List.mem_of_elem_eq_true h1)
      · exact Or.inr h1
  · have hallused : ∀ v ∈ (elimLoop used remove includeVars s varNames).2,
        useTest used includeVars
          (elimLoop used remove includeVars s varNames).1 v = true := by
      intro v hv
      rcases hmain v hv with h | h
      · exact absurd h (by simp)
      · exact h
    rw [elimLoop, elimLoopF_all_used used remove includeVars _ _ _ []
      (le_refl _) hallused]
    simp

set_option maxRecDepth 40000 in
theorem deadvar_elimination_fixed_point_witness :
    "a" ∈ (elimLoop (fun (s : List String) v => s.elem v)
        (fun s v => s.filter (fun x => ¬ x = v)) ["keep"] ["a"]
        ["a", "b"]).2 ∧
    ("a" ∈ ["keep"] ∨ (fun (s : List String) v => s.elem v)
        (elimLoop (fun (s : List String) v => s.elem v)
          (fun s v => s.filter (fun x => ¬ x = v)) ["keep"] ["a"]
          ["a", "b"]).1 "a" = true) :=
  ⟨by decide,
    (deadvar_elimination_fixed_point (List String)
      (fun s v => s.elem v) (fun s v => s.filter (fun x => ¬ x = v))
      ["keep"] ["a"] ["a", "b"]).1 "a" (by decide)⟩

/-!
### Directive validation and the abort (build.js lines 2731-2812)

The model receives the option list already stripped of the leading
node-executable pair (the `reNode` test consults the external `util`
path module), and receives the five `(commandName, entries,
validEntries)` triples as data, since the entry lists derive from the
external lodash runtime (`typeof _[key]`).  The invalid-argument reject
pass and the exclusive-command intersection are computed from the
options themselves, as in the source. -/
/-- Prefix test on the character lists (kernel-evaluable form of the
`/^name=/` anchors). -/
def strStarts (s p : String) : Bool := p.toList.isPrefixOf s.toList

def assignmentArgs : List String :=
  ["category=", "exclude=", "exports=", "iife=", "include=", "moduleId=",
    "minus=", "plus=", "settings=", "template="]

def validFlagArgs : List String :=
  ["backbone", "csp", "legacy", "mobile", "modern", "modularize", "strict",
    "underscore", "-c", "--stdout", "-d", "--debug", "-h", "--help", "-m",
    "--minify", "-n", "--no-dep", "-o", "--output", "-p", "--source-map",
    "-s", "--silent", "-V", "--version"]

/-- One step of the `_.reject` predicate of lines 2732-2761: an
argument is valid when it follows `-o`/`--output`, is a `name=value`
assignment, is a known flag, or follows `-p`/`--source-map` (the
source-map URL). -/
def isValidArg (prev : Option String) (value : String) : Bool :=
  (prev == some "-o" || prev == some "--output") ||
  assignmentArgs.any (fun p => strStarts value p) ||
  validFlagArgs.elem value ||
  (prev == some "-p" || prev == some "--source-map")

def invalidArgsOf (opts : List String) : List String :=
  ((opts.zip (none :: opts.map some)).filter
    (fun vp => !(isValidArg vp.2 vp.1))).map (fun vp => vp.1)

def exclusiveCommands : List String :=
  ["backbone", "csp", "legacy", "mobile", "modern", "underscore"]

/-- `/^template=(.+)$/` on some option: a non-empty single-line pattern
after `template=`. -/
def isTemplateOf (opts : List String) : Bool :=
  opts.any (fun o => strStarts o "template=" && !(o.drop 9) = "" &&
    !(o.drop 9).contains (Char.ofNat 10))

/-- `_.intersection(options, [...])` (unique, in option order), plus
the `template` pseudo-command of line 2771-2773. -/
def comboArgsOf (opts : List String) : List String :=
  if isTemplateOf opts = true then
    uniq (opts.filter (fun o => exclusiveCommands.elem o)) ++ ["template"]
  else uniq (opts.filter (fun o => exclusiveCommands.elem o))

/-- Lines 2778-2804: one `Invalid ... entry passed` warning per command
whose entries contain something neither valid nor the `"none"`
sentinel. -/
def entryWarning (commandName : String) (entries validEntries : List String) :
    Option String :=
  if difference entries (validEntries ++ ["none"]) = [] then none
  else some ("Invalid " ++ commandName ++ " entr" ++
    (if 1 < (difference entries (validEntries ++ ["none"])).length then "ies"
      else "y") ++ " passed: " ++
    String.intercalate ", " (difference entries (validEntries ++ ["none"])))

/-- The accumulated warning list of lines 2764-2804. -/
def computeWarnings (opts : List String)
    (entryChecks : List (String × List String × List String)) : List String :=
  (if invalidArgsOf opts = [] then []
    else ["Invalid argument" ++
      (if 1 < (invalidArgsOf opts).length then "s" else "") ++ " passed: " ++
      String.intercalate ", " (invalidArgsOf opts)]) ++
  (if 1 < (comboArgsOf opts).length then
    ["The " ++ String.intercalate ", " (comboArgsOf opts).dropLast ++
      (if 2 < (comboArgsOf opts).length then "," else "") ++ " and " ++
      (comboArgsOf opts).getLastD "" ++ " commands may not be combined."]
    else []) ++
  entryChecks.filterMap (fun c => entryWarning c.1 c.2.1 c.2.2)

/-- The observable outcome of one `build` invocation: either the
warning list is reported and the build returns without output, or the
rest of the pipeline runs and its output is produced. -/
inductive BuildOutcome where
  | aborted : List String → BuildOutcome
  | produced : List String → BuildOutcome
deriving DecidableEq

/-- Lines 2806-2812: `if (warnings.length) { console.log(...); return; }`
— the continuation (everything from line 2814 on, ending in the build
callback) runs only when no warning accumulated. -/
def buildCheck (opts : List String)
    (entryChecks : List (String × List String × List String))
    (proceed : Unit → List String) : BuildOutcome :=
  if computeWarnings opts entryChecks = [] then
    BuildOutcome.produced (proceed ())
  else BuildOutcome.aborted (computeWarnings opts entryChecks)

/-- **C9** Invalid-directive atomicity: whenever a directive is invalid
— an unrecognized argument, a forbidden command combination, or an
unknown category/exports/include/minus/plus entry — the warning list is
non-empty, and `build` reports that list and returns without producing
any output: the continuation (and hence the build callback) is never
invoked. -/
theorem invalid_directive_aborts (opts : List String)
    (entryChecks : List (String × List String × List String))
    (proceed : Unit → List String) :
    (¬ invalidArgsOf opts = [] ∨ 1 < (comboArgsOf opts).length ∨
      (∃ c ∈ entryChecks, ∃ e ∈ c.2.1, ¬ e ∈ c.2.2 ∧ ¬ e = "none")) →
    ¬ computeWarnings opts entryChecks = [] ∧
    buildCheck opts entryChecks proceed =
      BuildOutcome.aborted (computeWarnings opts entryChecks) := by
  intro hbad
  have hne : ¬ computeWarnings opts entryChecks = [] := by
    unfold computeWarnings
    rcases hbad with h | h | ⟨c, hc, e, he, hev⟩
    · rw [if_neg h]
      simp
    · rw [if_pos h]
      simp
    · intro habs
      rw [List.append_eq_nil, List.append_eq_nil] at habs
      have hnil := habs.2
      have hwarn : entryWarning c.1 c.2.1 c.2.2 ≠ none := by
        unfold entryWarning
        have hdiff : e ∈ difference c.2.1 (c.2.2 ++ ["none"]) := by
          rw [mem_difference]
          refine ⟨he, ?_⟩
          intro hmem
          rcases List.mem_append.mp hmem with h1 | h1
          · exact hev.1 h1
          · exact hev.2 (by simpa using h1)
        rw [if_neg (by
          intro h0
          rw [h0] at hdiff
          exact absurd hdiff (by simp))]
        simp
      have hmem2 : entryWarning c.1 c.2.1 c.2.2 ≠ none →
          ∃ w, w ∈ entryChecks.filterMap
            (fun c => entryWarning c.1 c.2.1 c.2.2) := by
        intro hW
        cases hw2 : entryWarning c.1 c.2.1 c.2.2 with
        | none => exact absurd hw2 hW
        | some w =>
          exact ⟨w, List.mem_filterMap.mpr ⟨c, hc, hw2⟩⟩
      obtain ⟨w, hw⟩ := hmem2 hwarn
      rw [hnil] at hw
      exact absurd hw (by simp)
  refine ⟨hne, ?_⟩
  unfold buildCheck
  rw [if_neg hne]

theorem invalid_directive_aborts_witness :
    ¬ invalidArgsOf ["bogus"] = [] ∧
    ¬ computeWarnings ["bogus"] [] = [] ∧
    buildCheck ["bogus"] [] (fun _ => ["output"]) =
      BuildOutcome.aborted (computeWarnings ["bogus"] []) :=
  ⟨by decide,
    (invalid_directive_aborts ["bogus"] [] (fun _ => ["output"])
      (Or.inl (by decide))).1,
    (invalid_directive_aborts ["bogus"] [] (fun _ => ["output"])
      (Or.inl (by decide))).2⟩

/-!
### Source locators and removals (build.js lines 1549-1630, 1834-1846,
1970-1972, 2320-2360)

The JS regular expressions themselves (backreference-laden, multiline)
are abstracted as pattern functions returning `Option`; the control
flow around them — the first-match `_.reduce` over the pattern list,
the trailing guard of `matchFunction`, the empty-string defaults, and
the truthiness-guarded removals — is modelled from the source. -/

/-- JS `String.prototype.replace` with a string pattern: replaces only
the first occurrence; the empty pattern matches at position 0. -/
def jsReplaceFirst (s pat repl : String) : String :=
  if pat = "" then repl ++ s
  else
    match s.splitOn pat with
    | [] => s
    | [_] => s
    | x :: rest => x ++ repl ++ String.intercalate pat rest

/-- The first-match `_.reduce` over a pattern list:
`result || (result = source.match(re))`. -/
def firstMatch {α : Type} (source : String)
    (pats : List (String → Option α)) : Option α :=
  pats.foldl (fun r p =>
    match r with
    | some x => some x
    | none => p source) none

/-- `matchFunction` (lines 1549-1571): first matching pattern wins
(each yields the leading comment and the snippet); the match is kept
only if the comment carries `@type Function` or the snippet looks like
a function/factory; otherwise — and when nothing matches — the empty
string is returned. -/
def matchFunctionM (pats : List (String → Option (String × String)))
    (typeGuard bodyGuard : String → Bool) (source : String)
    (leadingComments : Bool) : String :=
  match firstMatch source pats with
  | none => ""
  | some (c, snippet) =>
    if typeGuard c || bodyGuard snippet then
      (if leadingComments then c ++ snippet else snippet)
    else ""

/-- `matchProp` (lines 1583-1592): single pattern, empty string when it
fails. -/
def matchPropM (pat : String → Option String) (source : String) : String :=
  match pat source with
  | some r => r
  | none => ""

/-- `matchVar` (lines 1604-1630): first matching pattern of the
(complex-or-plain) candidate list, empty string when none matches. -/
def matchVarM (pats : List (String → Option String)) (source : String) :
    String :=
  match firstMatch source pats with
  | none => ""
  | some r => r

/-- `removeFunction` (lines 1834-1846): `runInContext` defers to its
specialized removal; otherwise the matched snippet is replaced only
when it is non-empty (truthy). -/
def removeFunctionM (rric : String → String)
    (pats : List (String → Option (String × String)))
    (typeGuard bodyGuard : String → Bool) (source funcName : String) :
    String :=
  if funcName = "runInContext" then rric source
  else
    if ¬ matchFunctionM pats typeGuard bodyGuard source true = "" then
      jsReplaceFirst source (matchFunctionM pats typeGuard bodyGuard source
        true) ""
    else source

/-- `removeProp` (lines 1970-1972): unconditionally replaces the
matched snippet (an empty match leaves the source unchanged). -/
def removePropM (pat : String → Option String) (source : String) : String :=
  jsReplaceFirst source (matchPropM pat source) ""

/-- The `_.some` of `removeVar` (lines 2330-2357): the first transform
that changes the source wins; if none changes it the source is
returned as-is. -/
def firstChange (s : String) : List (String → String) → String
  | [] => s
  | f :: fs => if ¬ f s = s then f s else firstChange s fs

/-- `removeVar` (lines 2320-2360): complex variables are first
simplified by a regex replacement, then the four removal shapes are
tried in order. -/
def removeVarM (simplifyComplex : String → String) (isComplex : Bool)
    (transforms : List (String → String)) (source : String) : String :=
  firstChange (if isComplex = true then simplifyComplex source else source)
    transforms

theorem firstMatch_none {α : Type} (source : String)
    (pats : List (String → Option α)) (h : ∀ p ∈ pats, p source = none) :
    firstMatch source pats = none := by
  induction pats with
  | nil => rfl
  | cons p ps ih =>
    have hstep : firstMatch source (p :: ps) =
        (p :: ps).foldl (fun r q =>
          match r with
          | some x => some x
          | none => q source) none := rfl
    rw [firstMatch, List.foldl_cons]
    rw [show (match (none : Option α) with
      | some x => some x
      | none => p source) = p source from rfl]
    rw [h p (by simp)]
    exact ih (fun q hq => h q (List.mem_cons_of_mem p hq))

theorem jsReplaceFirst_empty (s : String) : jsReplaceFirst s "" "" = s := by
  rw [jsReplaceFirst, if_pos rfl]
  rfl

theorem firstChange_fixed (s : String) (transforms : List (String → String))
    (h : ∀ f ∈ transforms, f s = s) : firstChange s transforms = s := by
  induction transforms with
  | nil => rfl
  | cons f fs ih =>
    rw [firstChange]
    rw [if_neg (by simp [h f (by simp)])]
    exact ih (fun g hg => h g (List.mem_cons_of_mem f hg))

/-- **C10** Locator failure mode: when none of a locator's declaration
patterns matches the source, `matchFunction`, `matchProp` and
`matchVar` return the empty string rather than raising an error, and
the corresponding removals (`removeFunction`, `removeProp`,
`removeVar`) return the source unchanged. -/
theorem locator_no_match_empty
    (fpats : List (String → Option (String × String)))
    (typeGuard bodyGuard : String → Bool) (ppat : String → Option String)
    (vpats : List (String → Option String))
    (rric simplifyComplex : String → String) (isComplex : Bool)
    (transforms : List (String → String)) (source funcName : String)
    (lead : Bool)
    (hf : ∀ p ∈ fpats, p source = none)
    (hp : ppat source = none)
    (hv : ∀ p ∈ vpats, p source = none)
    (hrun : ¬ funcName = "runInContext")
    (hsimp : isComplex = true → simplifyComplex source = source)
    (htrans : ∀ f ∈ transforms, f source = source) :
    matchFunctionM fpats typeGuard bodyGuard source lead = "" ∧
    matchPropM ppat source = "" ∧
    matchVarM vpats source = "" ∧
    removeFunctionM rric fpats typeGuard bodyGuard source funcName = source ∧
    removePropM ppat source = source ∧
    removeVarM simplifyComplex isComplex transforms source = source := by
  have hmf : ∀ b : Bool, matchFunctionM fpats typeGuard bodyGuard source b
      = "" := by
    intro b
    rw [matchFunctionM, firstMatch_none source fpats hf]
  have hmp : matchPropM ppat source = "" := by
    rw [matchPropM, hp]
  refine ⟨hmf lead, hmp, ?_, ?_, ?_, ?_⟩
  · rw [matchVarM, firstMatch_none source vpats hv]
  · rw [removeFunctionM, if_neg hrun, if_neg (by simp [hmf true])]
  · rw [removePropM, hmp]
    exact jsReplaceFirst_empty source
  · rw [removeVarM]
    by_cases hc : isComplex = true
    · rw [if_pos hc, hsimp hc]
      exact firstChange_fixed source transforms htrans
    · rw [if_neg hc]
      exact firstChange_fixed source transforms htrans

theorem locator_no_match_empty_witness :
    matchFunctionM [fun _ => none] (fun _ => false) (fun _ => false) "var x;"
      true = "" ∧
    matchPropM (fun _ => none) "var x;" = "" ∧
    matchVarM [fun _ => none] "var x;" = "" ∧
    removeFunctionM id [fun _ => none] (fun _ => false) (fun _ => false)
      "var x;" "compact" = "var x;" ∧
    removePropM (fun _ => none) "var x;" = "var x;" ∧
    removeVarM id false [fun s => s] "var x;" = "var x;" :=
  locator_no_match_empty [fun _ => none] (fun _ => false) (fun _ => false)
    (fun _ => none) [fun _ => none] id id false [fun s => s] "var x;"
    "compact" true
    (by
      intro p hp
      rw [List.mem_singleton] at hp
      subst hp
      rfl)
    rfl
    (by
      intro p hp
      rw [List.mem_singleton] at hp
      subst hp
      rfl)
    (by decide)
    (fun _ => rfl)
    (by
      intro f hf
      rw [List.mem_singleton] at hf
      subst hf
      rfl)
